import Mathlib

/-!
Verification of the k-way merge library (package kway).

The development shallowly embeds the Go source:
* wrap.go: the tagged element types (wrappedSeqValue, wrappedSeq2Value),
  the wrapping of sequences and comparators;
* heap.go: the mergeState heap interface (Less with the comparator-then-index
  tie break) together with the container/heap algorithms (sift up, sift down,
  Init, Push, Pop) that the source invokes on it, and the mergeState.all
  merge loop;
* the Merge / Merge2 entry points with their nil-comparator panic and their
  all-absent short circuit.

Go sequences (iter.Seq) are modelled as finite lists; a nil sequence is
modelled as none.  Go panics are modelled as Except.error values.  A pull
handle (iter.Pull next function) for source i is modelled as the list of
elements of source i not yet produced; a nil entry in the pulls slice is
modelled as none.
-/

set_option maxHeartbeats 1000000

/-- wrap.go: wrappedSeqValue pairs a source index with a value. -/
structure wrappedSeqValue (A : Type) where
  i : Nat
  v : A
deriving Repr, DecidableEq

/-- wrap.go: wrappedSeqValue.index returns the source index. -/
def wrappedSeqValue.index {A : Type} (x : wrappedSeqValue A) : Nat := x.i

/-- wrap.go: wrappedSeq2Value pairs a source index with a key/value pair. -/
structure wrappedSeq2Value (A : Type) (B : Type) where
  i : Nat
  v1 : A
  v2 : B
deriving Repr, DecidableEq

/-- wrap.go: wrappedSeq2Value.index returns the source index. -/
def wrappedSeq2Value.index {A B : Type} (x : wrappedSeq2Value A B) : Nat := x.i

/-- wrap.go: wrapSeq tags every element of the sequence with the source
index i. -/
def wrapSeq {A : Type} (i : Nat) (seq : List A) : List (wrappedSeqValue A) :=
  seq.map (fun v => ⟨i, v⟩)

/-- wrap.go: wrapSeq2 tags every key/value pair with the source index i. -/
def wrapSeq2 {A B : Type} (i : Nat) (seq : List (A × B)) :
    List (wrappedSeq2Value A B) :=
  seq.map (fun v => ⟨i, v.1, v.2⟩)

/-- wrap.go: wrapCompare compares wrapped elements by value only. -/
def wrapCompare {A : Type} (compare : A → A → Int) :
    wrappedSeqValue A → wrappedSeqValue A → Int :=
  fun a b => compare a.v b.v

/-- wrap.go: wrapCompare2 compares wrapped pairs by both components. -/
def wrapCompare2 {A B : Type} (compare : A → B → A → B → Int) :
    wrappedSeq2Value A B → wrappedSeq2Value A B → Int :=
  fun a b => compare a.v1 a.v2 b.v1 b.v2

/-- heap.go: mergeState.Less — compare by the comparator, falling back to
comparison by source index when the comparator reports zero. -/
def mergeLess {T : Type} (cmp : T → T → Int) (index : T → Nat)
    (a b : T) : Bool :=
  if cmp a b ≠ 0 then cmp a b < 0 else index a < index b

/-- heap.go: mergeState.Swap, exchanging two positions of the items slice.
Out-of-range positions (which panic in Go and never occur in the verified
runs) leave the list unchanged. -/
def swapItems {T : Type} (l : List T) (i j : Nat) : List T :=
  match l[i]?, l[j]? with
  | some a, some b => (l.set i b).set j a
  | _, _ => l

/-- heap.go: mergeState.Less lifted to positions of the items slice, as
used by container/heap.  Out-of-range positions yield false. -/
def lessAt {T : Type} (lt : T → T → Bool) (l : List T) (i j : Nat) : Bool :=
  match l[i]?, l[j]? with
  | some a, some b => lt a b
  | _, _ => false

/-- container/heap down (sift down) as invoked through heap.Init and
heap.Pop on the mergeState: repeatedly swap position i with its smaller
child while that child is less, within the first n positions. -/
def siftDown {T : Type} (lt : T → T → Bool) (l : List T) (i n : Nat) :
    List T :=
  let j1 := 2*i+1
  if h : j1 < n then
    let j := if j1+1 < n ∧ lessAt lt l (j1+1) j1 then j1+1 else j1
    if lessAt lt l j i then
      siftDown lt (swapItems l i j) j n
    else l
  else l
termination_by n - i
decreasing_by
  simp only [j1] at *
  split at *
  case _ => omega
  case _ => omega

/-- container/heap up (sift up) as invoked through heap.Push on the
mergeState: repeatedly swap position j with its parent while j is less. -/
def siftUp {T : Type} (lt : T → T → Bool) (l : List T) (j : Nat) : List T :=
  let i := (j - 1) / 2
  if h : i = j then l
  else if lessAt lt l j i then siftUp lt (swapItems l i j) i else l
termination_by j
decreasing_by
  simp only [i] at *
  omega

/-- container/heap Init: heapify by sifting down every internal node from
the last one to the root.  heapInitLoop l k n performs the sift downs at
positions k-1, k-2, ..., 0. -/
def heapInitLoop {T : Type} (lt : T → T → Bool) (l : List T) :
    Nat → Nat → List T
  | 0, _ => l
  | k+1, n => heapInitLoop lt (siftDown lt l k n) k n

/-- container/heap Init applied to the items slice. -/
def heapInit {T : Type} (lt : T → T → Bool) (l : List T) : List T :=
  heapInitLoop lt l (l.length / 2) l.length

/-- container/heap Push combined with mergeState.Push: append the new item
and sift it up. -/
def heapPush {T : Type} (lt : T → T → Bool) (l : List T) (x : T) : List T :=
  let l1 := l ++ [x]
  siftUp lt l1 (l1.length - 1)

/-- container/heap Pop combined with mergeState.Pop: swap the root with the
last position, sift the new root down within the shortened range, then
remove and return the last item.  Popping an empty heap panics in Go and is
modelled as none. -/
def heapPop {T : Type} (lt : T → T → Bool) (l : List T) :
    Option (T × List T) :=
  match l with
  | [] => none
  | _ :: _ =>
    let n := l.length - 1
    let l1 := swapItems l 0 n
    let l2 := siftDown lt l1 0 n
    l2.getLast?.map (fun v => (v, l2.dropLast))

/-- heap.go: the initial pull of mergeState.all on one source: a nil source
contributes nothing and gets no pull handle; a non-nil source is pulled
once; on success the element joins the frontier and the handle is kept,
otherwise the handle entry stays nil. -/
def probeSource {T : Type} : Option (List T) → Option T × Option (List T)
  | none => (none, none)
  | some [] => (none, none)
  | some (h :: t) => (some h, some t)

/-- heap.go: the initialization loop of mergeState.all over all sources, in
order, producing the initial items slice and the pulls slice. -/
def initFrontier {T : Type} :
    List (Option (List T)) → List T × List (Option (List T))
  | [] => ([], [])
  | s :: rest =>
    let p := probeSource s
    let r := initFrontier rest
    (match p.1 with
     | some v => v :: r.1
     | none => r.1,
     p.2 :: r.2)

/-- heap.go: the refill step of the merge loop: after emitting v, call the
pull handle of the source that produced v; if it yields a value, push it
onto the heap.  An out-of-range source index or a nil handle panics in Go
and is modelled as Except.error. -/
def refill {T : Type} (lt : T → T → Bool) (index : T → Nat) (v : T)
    (rest : List T) (pulls : List (Option (List T))) :
    Except String (List T × List (Option (List T))) :=
  match pulls[index v]? with
  | none => .error "runtime error: index out of range"
  | some none => .error "runtime error: invalid memory address or nil pointer dereference"
  | some (some []) => .ok (rest, pulls)
  | some (some (h :: t)) => .ok (heapPush lt rest h, pulls.set (index v) (some t))

/-- One iteration of the merge loop of mergeState.all, when the consumer
continues: if the heap is empty the loop is done (none); otherwise pop the
minimum, refill from its source, and report the emitted element together
with the new state. -/
def mergeStep {T : Type} (lt : T → T → Bool) (index : T → Nat)
    (st : List T × List (Option (List T))) :
    Except String (Option (T × (List T × List (Option (List T))))) :=
  match heapPop lt st.1 with
  | none => .ok none
  | some (v, rest) =>
    match refill lt index v rest st.2 with
    | .error e => .error e
    | .ok st2 => .ok (some (v, st2))

/-- Sum of the numbers of not-yet-produced elements over the pulls slice. -/
def remSize {T : Type} (pulls : List (Option (List T))) : Nat :=
  (pulls.map (fun o => (o.getD []).length)).sum

/-- Measure of a merge loop state: frontier size plus unproduced elements. -/
def stateSize {T : Type} (st : List T × List (Option (List T))) : Nat :=
  st.1.length + remSize st.2

/-! ### Permutation and length facts about the heap primitives -/

theorem replaceFrontPerm {T : Type} :
    ∀ (xs : List T) (k : Nat) (a b : T), xs[k]? = some b →
      List.Perm (b :: xs.set k a) (a :: xs) := by
  intro xs
  induction xs with
  | nil => intro k a b h; simp at h
  | cons y t ih =>
    intro k a b h
    cases k with
    | zero =>
      simp only [List.getElem?_cons_zero, Option.some.injEq] at h
      subst h
      simpa using List.Perm.swap ..
    | succ k =>
      simp only [List.getElem?_cons_succ] at h
      have h1 : List.Perm (b :: y :: t.set k a) (y :: b :: t.set k a) :=
        List.Perm.swap y b _
      have h2 : List.Perm (y :: b :: t.set k a) (y :: a :: t) :=
        List.Perm.cons y (ih k a b h)
      have h3 : List.Perm (y :: a :: t) (a :: y :: t) := List.Perm.swap a y t
      simpa using (h1.trans h2).trans h3

theorem setSelfPerm {T : Type} (l : List T) (i : Nat) (a : T)
    (h : l[i]? = some a) : List.Perm (l.set i a) l :=
  List.Perm.cons_inv (replaceFrontPerm l i a a h)

theorem setSetPerm {T : Type} :
    ∀ (l : List T) (i j : Nat) (a b : T), i ≤ j → l[i]? = some a →
      l[j]? = some b → List.Perm ((l.set i b).set j a) l := by
  intro l
  induction l with
  | nil => intro i j a b _ h _; simp at h
  | cons x t ih =>
    intro i j a b hij ha hb
    cases i with
    | zero =>
      simp only [List.getElem?_cons_zero, Option.some.injEq] at ha
      subst ha
      cases j with
      | zero =>
        simp only [List.getElem?_cons_zero, Option.some.injEq] at hb
        subst hb
        simp
      | succ j =>
        simp only [List.getElem?_cons_succ] at hb
        simpa using replaceFrontPerm t j x b hb
    | succ i =>
      cases j with
      | zero => omega
      | succ j =>
        simp only [List.getElem?_cons_succ] at ha hb
        simpa using List.Perm.cons x (ih i j a b (by omega) ha hb)

theorem swapItems_perm {T : Type} (l : List T) (i j : Nat) :
    List.Perm (swapItems l i j) l := by
  unfold swapItems
  cases hi : l[i]? with
  | none =>
    cases hj : l[j]? with
    | none => exact List.Perm.refl l
    | some b => exact List.Perm.refl l
  | some a =>
    cases hj : l[j]? with
    | none => exact List.Perm.refl l
    | some b =>
      show List.Perm ((l.set i b).set j a) l
      by_cases hij : i = j
      · subst hij
        rw [hi] at hj
        cases hj
        rw [List.set_set]
        exact setSelfPerm l i a hi
      · rcases Nat.le_total i j with h | h
        · exact setSetPerm l i j a b h hi hj
        · have hp := setSetPerm l j i b a h hj hi
          rw [List.set_comm _ _ _ (fun hc => hij hc.symm)] at hp
          exact hp

theorem swapItems_length {T : Type} (l : List T) (i j : Nat) :
    (swapItems l i j).length = l.length :=
  (swapItems_perm l i j).length_eq

theorem siftDown_perm {T : Type} (lt : T → T → Bool) (l : List T)
    (i n : Nat) : List.Perm (siftDown lt l i n) l := by
  induction l, i, n using siftDown.induct lt with
  | case1 l i n j1 h j hlt ih =>
    rw [siftDown]
    simp only [j1, j] at *
    simp only [dite_eq_ite] at hlt ih
    simp only [dif_pos h, if_pos hlt]
    exact ih.trans (swapItems_perm l i _)
  | case2 l i n j1 h j hlt =>
    rw [siftDown]
    simp only [j1, j] at *
    simp only [dite_eq_ite] at hlt
    simp only [dif_pos h, if_neg hlt]
    exact List.Perm.refl l
  | case3 l i n j1 h =>
    rw [siftDown]
    simp only [j1] at *
    simp only [dif_neg h]
    exact List.Perm.refl l

theorem siftDown_length {T : Type} (lt : T → T → Bool) (l : List T)
    (i n : Nat) : (siftDown lt l i n).length = l.length :=
  (siftDown_perm lt l i n).length_eq

theorem siftUp_perm {T : Type} (lt : T → T → Bool) (l : List T) (j : Nat) :
    List.Perm (siftUp lt l j) l := by
  induction l, j using siftUp.induct lt with
  | case1 l j i h =>
    rw [siftUp]
    simp only [i] at *
    simp only [dif_pos h]
    exact List.Perm.refl l
  | case2 l j i h hlt ih =>
    rw [siftUp]
    simp only [i] at *
    simp only [dif_neg h, if_pos hlt]
    exact ih.trans (swapItems_perm l _ j)
  | case3 l j i h hlt =>
    rw [siftUp]
    simp only [i] at *
    simp only [dif_neg h, if_neg hlt]
    exact List.Perm.refl l

theorem siftUp_length {T : Type} (lt : T → T → Bool) (l : List T) (j : Nat) :
    (siftUp lt l j).length = l.length :=
  (siftUp_perm lt l j).length_eq

theorem heapInitLoop_perm {T : Type} (lt : T → T → Bool) :
    ∀ (k : Nat) (l : List T) (n : Nat),
      List.Perm (heapInitLoop lt l k n) l := by
  intro k
  induction k with
  | zero => intro l n; exact List.Perm.refl l
  | succ k ih =>
    intro l n
    exact (ih (siftDown lt l k n) n).trans (siftDown_perm lt l k n)

theorem heapInit_perm {T : Type} (lt : T → T → Bool) (l : List T) :
    List.Perm (heapInit lt l) l :=
  heapInitLoop_perm lt (l.length / 2) l l.length

theorem heapPush_perm {T : Type} (lt : T → T → Bool) (l : List T) (x : T) :
    List.Perm (heapPush lt l x) (x :: l) := by
  unfold heapPush
  exact (siftUp_perm lt (l ++ [x]) _).trans
    (List.perm_append_singleton x l)

theorem heapPush_length {T : Type} (lt : T → T → Bool) (l : List T)
    (x : T) : (heapPush lt l x).length = l.length + 1 := by
  have := (heapPush_perm lt l x).length_eq
  simpa using this

theorem heapPop_nil {T : Type} (lt : T → T → Bool) :
    heapPop lt ([] : List T) = none := rfl

theorem heapPop_some {T : Type} (lt : T → T → Bool) (l : List T)
    (h : l ≠ []) : ∃ v rest, heapPop lt l = some (v, rest) ∧
      List.Perm (v :: rest) l ∧ rest.length + 1 = l.length := by
  match l, h with
  | x :: xs, _ =>
    unfold heapPop
    set l2 := siftDown lt (swapItems (x :: xs) 0 ((x :: xs).length - 1))
      0 ((x :: xs).length - 1) with hl2
    have hperm : List.Perm l2 (x :: xs) :=
      (siftDown_perm lt _ _ _).trans (swapItems_perm _ _ _)
    have hlen : l2.length = xs.length + 1 := by
      have := hperm.length_eq
      simpa using this
    have hne : l2 ≠ [] := by
      intro hc
      rw [hc] at hlen
      simp at hlen
    refine ⟨l2.getLast hne, l2.dropLast, ?_, ?_, ?_⟩
    · simp only [List.getLast?_eq_getLast l2 hne, Option.map_some']
    · have h2 := List.dropLast_append_getLast hne
      have h3 := (List.perm_append_singleton (l2.getLast hne) l2.dropLast).symm
      rw [h2] at h3
      exact h3.trans hperm
    · have := List.length_dropLast l2
      simp only [this, hlen]
      simp

/-! ### The merge loop -/

theorem remSize_set {T : Type} :
    ∀ (pulls : List (Option (List T))) (i : Nat) (y x : Option (List T)),
      pulls[i]? = some y →
      remSize (pulls.set i x) + (y.getD []).length
        = remSize pulls + (x.getD []).length := by
  intro pulls
  induction pulls with
  | nil => intro i y x h; simp at h
  | cons p rest ih =>
    intro i y x h
    cases i with
    | zero =>
      simp only [List.getElem?_cons_zero, Option.some.injEq] at h
      subst h
      simp only [List.set_cons_zero, remSize, List.map_cons, List.sum_cons]
      omega
    | succ i =>
      simp only [List.getElem?_cons_succ] at h
      have := ih i y x h
      simp only [List.set_cons_succ, remSize, List.map_cons, List.sum_cons]
      simp only [remSize] at this
      omega

theorem refill_size {T : Type} (lt : T → T → Bool) (index : T → Nat)
    (v : T) (rest : List T) (pulls : List (Option (List T)))
    (st2 : List T × List (Option (List T)))
    (h : refill lt index v rest pulls = .ok st2) :
    stateSize st2 ≤ rest.length + remSize pulls := by
  unfold refill at h
  cases hp : pulls[index v]? with
  | none => rw [hp] at h; cases h
  | some o =>
    cases o with
    | none => rw [hp] at h; cases h
    | some rem =>
      cases rem with
      | nil =>
        rw [hp] at h
        cases h
        simp [stateSize]
      | cons x t =>
        rw [hp] at h
        cases h
        have hs := remSize_set pulls (index v) (some (x :: t)) (some t) hp
        simp only [stateSize, heapPush_length]
        simp only [Option.getD_some, List.length_cons] at hs
        omega

theorem pop_refill_size {T : Type} (lt : T → T → Bool) (index : T → Nat)
    (items : List T) (pulls : List (Option (List T))) (v : T)
    (rest : List T) (st2 : List T × List (Option (List T)))
    (hpop : heapPop lt items = some (v, rest))
    (hr : refill lt index v rest pulls = .ok st2) :
    stateSize st2 < stateSize (items, pulls) := by
  have hne : items ≠ [] := by
    intro hc
    rw [hc] at hpop
    simp [heapPop_nil] at hpop
  obtain ⟨v1, rest1, he, _, hlen⟩ := heapPop_some lt items hne
  rw [hpop] at he
  cases he
  have hb := refill_size lt index v rest pulls st2 hr
  simp only [stateSize] at hb ⊢
  omega

theorem mergeStep_size {T : Type} (lt : T → T → Bool) (index : T → Nat)
    (st : List T × List (Option (List T))) (v : T)
    (st2 : List T × List (Option (List T)))
    (h : mergeStep lt index st = .ok (some (v, st2))) :
    stateSize st2 < stateSize st := by
  unfold mergeStep at h
  split at h
  next hpop => cases h
  next v0 rest hpop =>
    split at h
    next hr => cases h
    next st3 hr =>
      cases h
      have := pop_refill_size lt index st.1 st.2 v rest st2 hpop hr
      simpa using this

/-- The merge loop of mergeState.all driven by a consumer that never stops:
returns the emitted elements in order, the final pulls slice, and the
number of pull calls made by the loop. -/
def runAll {T : Type} (lt : T → T → Bool) (index : T → Nat)
    (st : List T × List (Option (List T))) :
    Except String (List T × (List T × List (Option (List T))) × Nat) :=
  match hstep : mergeStep lt index st with
  | .error e => .error e
  | .ok none => .ok ([], st, 0)
  | .ok (some (v, st2)) =>
    match runAll lt index st2 with
    | .error e => .error e
    | .ok (out, fin, c) => .ok (v :: out, fin, c + 1)
termination_by stateSize st
decreasing_by exact mergeStep_size lt index st v st2 hstep

/-- The merge loop of mergeState.all driven by a consumer that consumes b
elements and then signals stop (yield returning false): the loop pops the
minimum, hands it to the consumer, and returns without any further pull
when the consumer stops. -/
def runStop {T : Type} (lt : T → T → Bool) (index : T → Nat) (b : Nat)
    (st : List T × List (Option (List T))) :
    Except String (List T × (List T × List (Option (List T))) × Nat) :=
  match hpop : heapPop lt st.1 with
  | none => .ok ([], st, 0)
  | some (v, rest) =>
    match b with
    | 0 => .ok ([], (rest, st.2), 0)
    | 1 => .ok ([v], (rest, st.2), 0)
    | b+2 =>
      match hr : refill lt index v rest st.2 with
      | .error e => .error e
      | .ok st2 =>
        match runStop lt index (b+1) st2 with
        | .error e => .error e
        | .ok (out, fin, c) => .ok (v :: out, fin, c + 1)
termination_by stateSize st
decreasing_by
  have := pop_refill_size lt index st.1 st.2 v rest st2 hpop hr
  simpa using this

/-- n iterations of the merge loop (or fewer if the frontier empties),
carrying the emitted elements; the intermediate states of mergeState.all
are exactly the states this function passes through. -/
def iterMerge {T : Type} (lt : T → T → Bool) (index : T → Nat) :
    Nat → List T × List (Option (List T)) × List T →
    Except String (List T × List (Option (List T)) × List T)
  | 0, st => .ok st
  | n+1, (items, pulls, out) =>
    match mergeStep lt index (items, pulls) with
    | .error e => .error e
    | .ok none => .ok (items, pulls, out)
    | .ok (some (v, (items2, pulls2))) =>
      iterMerge lt index n (items2, pulls2, out ++ [v])

/-- The state of mergeState.all right after its initialization phase:
frontier probed in source order, then heapified. -/
def mergeInitState {T : Type} (cmp : T → T → Int) (index : T → Nat)
    (seqs : List (Option (List T))) :
    List T × List (Option (List T)) :=
  let fr := initFrontier seqs
  (heapInit (mergeLess cmp index) fr.1, fr.2)

/-- heap.go: mergeState.all — initialization then the merge loop; returns
the emitted items and the number of loop pull calls. -/
def mergeStateAll {T : Type} (cmp : T → T → Int) (index : T → Nat)
    (seqs : List (Option (List T))) : Except String (List T × Nat) :=
  match runAll (mergeLess cmp index) index (mergeInitState cmp index seqs) with
  | .error e => .error e
  | .ok (out, _, c) => .ok (out, c)

/-- The sources of Merge after the wrapping loop: source i is tagged with
index i; nil sources stay nil. -/
def wrapSources {A : Type} :
    Nat → List (Option (List A)) → List (Option (List (wrappedSeqValue A)))
  | _, [] => []
  | i, s :: rest => (s.map (wrapSeq i)) :: wrapSources (i+1) rest

/-- mergeSeq: drive the engine over wrapped sequences and unwrap each
emitted element. -/
def mergeSeq {A : Type}
    (cmp : wrappedSeqValue A → wrappedSeqValue A → Int)
    (seqs : List (Option (List (wrappedSeqValue A)))) :
    Except String (List A) :=
  match mergeStateAll cmp wrappedSeqValue.index seqs with
  | .error e => .error e
  | .ok (out, _) => .ok (out.map (fun v => v.v))

/-- Merge: panic on a nil comparator; short-circuit to the empty sequence
when every source is nil; otherwise wrap and run the engine. -/
def Merge {A : Type} (cmp : Option (A → A → Int))
    (seqs : List (Option (List A))) : Except String (List A) :=
  match cmp with
  | none => .error "kway: nil comparison function"
  | some c =>
    if seqs.all (fun s => s.isNone) then .ok []
    else mergeSeq (wrapCompare c) (wrapSources 0 seqs)

/-- The sources of Merge2 after the wrapping loop. -/
def wrapSources2 {A B : Type} :
    Nat → List (Option (List (A × B))) →
    List (Option (List (wrappedSeq2Value A B)))
  | _, [] => []
  | i, s :: rest => (s.map (wrapSeq2 i)) :: wrapSources2 (i+1) rest

/-- mergeSeq2: drive the engine over wrapped pair sequences and unwrap each
emitted element into its key/value pair. -/
def mergeSeq2 {A B : Type}
    (cmp : wrappedSeq2Value A B → wrappedSeq2Value A B → Int)
    (seqs : List (Option (List (wrappedSeq2Value A B)))) :
    Except String (List (A × B)) :=
  match mergeStateAll cmp wrappedSeq2Value.index seqs with
  | .error e => .error e
  | .ok (out, _) => .ok (out.map (fun v => (v.v1, v.v2)))

/-- Merge2: panic on a nil comparator; short-circuit when every source is
nil; otherwise wrap pairs and run the same engine. -/
def Merge2 {A B : Type} (cmp : Option (A → B → A → B → Int))
    (seqs : List (Option (List (A × B)))) : Except String (List (A × B)) :=
  match cmp with
  | none => .error "kway: nil comparison function"
  | some c =>
    if seqs.all (fun s => s.isNone) then .ok []
    else mergeSeq2 (wrapCompare2 c) (wrapSources2 0 seqs)

/-- Number of next() calls performed by the initialization phase of
mergeState.all: exactly one existence probe per non-nil source. -/
def probeCalls {T : Type} (seqs : List (Option (List T))) : Nat :=
  seqs.countP (fun s => s.isSome)

/-- Merge instrumented with pull accounting: besides the merged output it
reports the number of next() calls of the initialization phase and of the
merge loop.  The all-nil short circuit performs none of either. -/
def MergeInstr {A : Type} (cmp : Option (A → A → Int))
    (seqs : List (Option (List A))) :
    Except String (List A × Nat × Nat) :=
  match cmp with
  | none => .error "kway: nil comparison function"
  | some c =>
    if seqs.all (fun s => s.isNone) then .ok ([], 0, 0)
    else
      match mergeStateAll (wrapCompare c) wrappedSeqValue.index
          (wrapSources 0 seqs) with
      | .error e => .error e
      | .ok (out, calls) =>
        .ok (out.map (fun v => v.v), probeCalls seqs, calls)

/-- Merge driven by a consumer that consumes b elements and then stops:
returns the elements consumed and the number of loop pull calls. -/
def MergeStop {A : Type} (cmp : A → A → Int)
    (seqs : List (Option (List A))) (b : Nat) :
    Except String (List A × Nat) :=
  if seqs.all (fun s => s.isNone) then .ok ([], 0)
  else
    let w := wrapSources 0 seqs
    match runStop (mergeLess (wrapCompare cmp) wrappedSeqValue.index)
        wrappedSeqValue.index b
        (mergeInitState (wrapCompare cmp) wrappedSeqValue.index w) with
    | .error e => .error e
    | .ok (out, _, c) => .ok (out.map (fun v => v.v), c)

/-! ### Comparator contract and the Less order -/

/-- The documented contract of the comparison function: it behaves like
cmp.Compare / strings.Compare, i.e. it is the three-way comparator of a
total preorder: the sign flips when the arguments flip, and the induced
non-strict relation is transitive. -/
structure IsComparator {A : Type} (cmp : A → A → Int) : Prop where
  flip_sign : ∀ a b, cmp a b < 0 ↔ 0 < cmp b a
  le_trans : ∀ a b c, cmp a b ≤ 0 → cmp b c ≤ 0 → cmp a c ≤ 0

theorem IsComparator.refl_zero {A : Type} {cmp : A → A → Int}
    (hc : IsComparator cmp) (a : A) : cmp a a = 0 := by
  have := hc.flip_sign a a
  omega

theorem IsComparator.zero_symm {A : Type} {cmp : A → A → Int}
    (hc : IsComparator cmp) {a b : A} (h : cmp a b = 0) : cmp b a = 0 := by
  have h1 := hc.flip_sign a b
  have h2 := hc.flip_sign b a
  omega

theorem IsComparator.lt_le_trans {A : Type} {cmp : A → A → Int}
    (hc : IsComparator cmp) {a b c : A} (h1 : cmp a b < 0)
    (h2 : cmp b c ≤ 0) : cmp a c < 0 := by
  have h3 := hc.le_trans a b c (by omega) h2
  by_cases hz : cmp a c = 0
  · have h4 := hc.zero_symm hz
    have h6 := hc.le_trans b c a h2 (by omega)
    have h7 := hc.flip_sign a b
    omega
  · omega

theorem IsComparator.le_lt_trans {A : Type} {cmp : A → A → Int}
    (hc : IsComparator cmp) {a b c : A} (h1 : cmp a b ≤ 0)
    (h2 : cmp b c < 0) : cmp a c < 0 := by
  by_cases hz : cmp a c = 0
  · have h4 := hc.zero_symm hz
    have h5 := hc.le_trans c a b (by omega) h1
    have h6 := hc.flip_sign b c
    omega
  · have h3 := hc.le_trans a b c h1 (by omega)
    omega

/-- Properties of the strict order used by the heap: irreflexive,
transitive and negatively transitive (a strict weak order). -/
structure LtSpec {T : Type} (lt : T → T → Bool) : Prop where
  irrefl : ∀ a, lt a a = false
  lt_trans : ∀ a b c, lt a b = true → lt b c = true → lt a c = true
  neg_trans : ∀ a b c, lt a b = false → lt b c = false → lt a c = false

theorem LtSpec.asymm {T : Type} {lt : T → T → Bool} (hs : LtSpec lt)
    {a b : T} (h : lt a b = true) : lt b a = false := by
  cases hba : lt b a with
  | false => rfl
  | true =>
    have := hs.lt_trans a b a h hba
    rw [hs.irrefl a] at this
    cases this

theorem mergeLess_true_iff {T : Type} (cmp : T → T → Int) (index : T → Nat)
    (a b : T) :
    mergeLess cmp index a b = true ↔
      (cmp a b < 0 ∨ (cmp a b = 0 ∧ index a < index b)) := by
  unfold mergeLess
  by_cases h : cmp a b = 0
  · simp [h]
  · have hne : cmp a b ≠ 0 := h
    rw [if_pos hne]
    simp only [decide_eq_true_eq]
    omega

theorem mergeLess_false_iff {T : Type} (cmp : T → T → Int) (index : T → Nat)
    (a b : T) :
    mergeLess cmp index a b = false ↔
      (0 < cmp a b ∨ (cmp a b = 0 ∧ index b ≤ index a)) := by
  rw [← Bool.not_eq_true, mergeLess_true_iff]
  constructor
  · intro h
    push_neg at h
    omega
  · intro h
    push_neg
    omega

theorem mergeLess_ltSpec {T : Type} {cmp : T → T → Int} (index : T → Nat)
    (hc : IsComparator cmp) : LtSpec (mergeLess cmp index) := by
  constructor
  · intro a
    rw [mergeLess_false_iff]
    right
    exact ⟨hc.refl_zero a, Nat.le_refl _⟩
  · intro a b c hab hbc
    rw [mergeLess_true_iff] at hab hbc ⊢
    rcases hab with h1 | ⟨h1, h1i⟩
    · rcases hbc with h2 | ⟨h2, h2i⟩
      · exact Or.inl (hc.lt_le_trans h1 (by omega))
      · exact Or.inl (hc.lt_le_trans h1 (by omega))
    · rcases hbc with h2 | ⟨h2, h2i⟩
      · exact Or.inl (hc.le_lt_trans (by omega) h2)
      · refine Or.inr ⟨?_, by omega⟩
        have hz2 := hc.zero_symm h2
        have hz1 := hc.zero_symm h1
        have h3 := hc.le_trans a b c (by omega) (by omega)
        have h4 := hc.le_trans c b a (by omega) (by omega)
        have h5 := hc.flip_sign a c
        omega
  · intro a b c hab hbc
    rw [mergeLess_false_iff] at hab hbc ⊢
    rcases hab with h1 | ⟨h1, h1i⟩
    · rcases hbc with h2 | ⟨h2, h2i⟩
      · have h3 := hc.flip_sign b a
        have h4 := hc.flip_sign c b
        have h5 := hc.lt_le_trans (a := c) (b := b) (c := a)
          (by omega) (by omega)
        have h6 := hc.flip_sign c a
        omega
      · have h3 := hc.flip_sign b a
        have h4 := hc.le_lt_trans (a := c) (b := b) (c := a)
          (by have := hc.zero_symm h2; omega) (by omega)
        have h6 := hc.flip_sign c a
        omega
    · rcases hbc with h2 | ⟨h2, h2i⟩
      · have h3 := hc.flip_sign c b
        have h4 := hc.lt_le_trans (a := c) (b := b) (c := a)
          (by omega) (by have := hc.zero_symm h1; omega)
        have h6 := hc.flip_sign c a
        omega
      · refine Or.inr ⟨?_, by omega⟩
        have h4 := hc.le_trans a b c (by omega) (by omega)
        have h5 := hc.le_trans c b a
          (by have := hc.zero_symm h2; omega)
          (by have := hc.zero_symm h1; omega)
        have h6 := hc.flip_sign a c
        omega

/-! ### The heap property -/

/-- The binary-heap property restricted to parents at positions at least k,
over the first n positions of the items slice: no child compares strictly
less than its parent. -/
def HeapFrom {T : Type} (lt : T → T → Bool) (l : List T) (n k : Nat) :
    Prop :=
  ∀ p j, k ≤ p → (j = 2*p+1 ∨ j = 2*p+2) → j < n → lessAt lt l j p = false

/-- The full binary-heap property of the items slice. -/
def IsHeap {T : Type} (lt : T → T → Bool) (l : List T) : Prop :=
  HeapFrom lt l l.length 0

theorem lessAt_eq_lt {T : Type} (lt : T → T → Bool) (l : List T)
    (i j : Nat) (a b : T) (ha : l[i]? = some a) (hb : l[j]? = some b) :
    lessAt lt l i j = lt a b := by
  unfold lessAt
  rw [ha, hb]

theorem swapItems_getElem? {T : Type} (l : List T) (i j : Nat)
    (hi : i < l.length) (hj : j < l.length) (k : Nat) :
    (swapItems l i j)[k]? = l[if k = i then j else if k = j then i else k]? := by
  have ha := List.getElem?_eq_getElem hi
  have hb := List.getElem?_eq_getElem hj
  unfold swapItems
  rw [ha, hb]
  show ((l.set i (l.get ⟨j, hj⟩)).set j (l.get ⟨i, hi⟩))[k]? = _
  by_cases hkj : k = j
  · subst hkj
    rw [List.getElem?_set_eq_of_lt _ (by simp [hj])]
    by_cases hki : k = i
    · subst hki
      simp only [if_pos rfl]
      exact (List.getElem?_eq_getElem hi).symm
    · simp only [if_neg hki, if_pos rfl]
      exact (List.getElem?_eq_getElem hi).symm
  · rw [List.getElem?_set_ne (fun hc => hkj hc.symm)]
    by_cases hki : k = i
    · subst hki
      rw [List.getElem?_set_eq_of_lt _ hi]
      simp only [if_pos rfl]
      exact (List.getElem?_eq_getElem hj).symm
    · rw [List.getElem?_set_ne (fun hc => hki hc.symm)]
      simp only [if_neg hki, if_neg hkj]

theorem lessAt_swapItems {T : Type} (lt : T → T → Bool) (l : List T)
    (i j : Nat) (hi : i < l.length) (hj : j < l.length) (k m : Nat) :
    lessAt lt (swapItems l i j) k m
      = lessAt lt l (if k = i then j else if k = j then i else k)
          (if m = i then j else if m = j then i else m) := by
  unfold lessAt
  rw [swapItems_getElem? l i j hi hj k, swapItems_getElem? l i j hi hj m]

theorem heapFrom_zero_min {T : Type} {lt : T → T → Bool} (hs : LtSpec lt)
    (l : List T) (n : Nat) (hn : n ≤ l.length)
    (hH : HeapFrom lt l n 0) :
    ∀ k, k < n → lessAt lt l k 0 = false := by
  intro k
  induction k using Nat.strong_induction_on with
  | _ k ih =>
    intro hk
    have hk0 : (0:Nat) < n := by omega
    have h0 := List.getElem?_eq_getElem (Nat.lt_of_lt_of_le hk0 hn)
    have hkl := List.getElem?_eq_getElem (Nat.lt_of_lt_of_le hk hn)
    cases k with
    | zero =>
      rw [lessAt_eq_lt lt l 0 0 _ _ h0 h0]
      exact hs.irrefl _
    | succ k0 =>
      have hchild : k0+1 = 2*((k0+1-1)/2)+1 ∨ k0+1 = 2*((k0+1-1)/2)+2 := by
        omega
      have h1 := hH ((k0+1-1)/2) (k0+1) (Nat.zero_le _) hchild hk
      have h2 := ih ((k0+1-1)/2) (by omega) (by omega)
      have hpl := List.getElem?_eq_getElem
        (Nat.lt_of_lt_of_le (show (k0+1-1)/2 < n by omega) hn)
      rw [lessAt_eq_lt lt l _ _ _ _ hkl hpl] at h1
      rw [lessAt_eq_lt lt l _ _ _ _ hpl h0] at h2
      rw [lessAt_eq_lt lt l _ _ _ _ hkl h0]
      exact hs.neg_trans _ _ _ h1 h2

theorem lessAt_get {T : Type} (lt : T → T → Bool) (l : List T) (i j : Nat)
    (hi : i < l.length) (hj : j < l.length) :
    lessAt lt l i j = lt (l.get ⟨i, hi⟩) (l.get ⟨j, hj⟩) :=
  lessAt_eq_lt lt l i j _ _ (List.getElem?_eq_getElem hi)
    (List.getElem?_eq_getElem hj)

theorem lessAt_trans {T : Type} {lt : T → T → Bool} (hs : LtSpec lt)
    {l : List T} {i j k : Nat} (hi : i < l.length) (hj : j < l.length)
    (hk : k < l.length) (h1 : lessAt lt l i j = true)
    (h2 : lessAt lt l j k = true) : lessAt lt l i k = true := by
  rw [lessAt_get lt l i j hi hj] at h1
  rw [lessAt_get lt l j k hj hk] at h2
  rw [lessAt_get lt l i k hi hk]
  exact hs.lt_trans _ _ _ h1 h2

theorem lessAt_neg_trans {T : Type} {lt : T → T → Bool} (hs : LtSpec lt)
    {l : List T} {i j k : Nat} (hi : i < l.length) (hj : j < l.length)
    (hk : k < l.length) (h1 : lessAt lt l i j = false)
    (h2 : lessAt lt l j k = false) : lessAt lt l i k = false := by
  rw [lessAt_get lt l i j hi hj] at h1
  rw [lessAt_get lt l j k hj hk] at h2
  rw [lessAt_get lt l i k hi hk]
  exact hs.neg_trans _ _ _ h1 h2

theorem lessAt_asymm {T : Type} {lt : T → T → Bool} (hs : LtSpec lt)
    {l : List T} {i j : Nat} (hi : i < l.length) (hj : j < l.length)
    (h : lessAt lt l i j = true) : lessAt lt l j i = false := by
  rw [lessAt_get lt l i j hi hj] at h
  rw [lessAt_get lt l j i hj hi]
  exact hs.asymm h

/-- Correctness of the sift down pass: if every parent at or above i0 other
than i already satisfies the heap condition, and (unless i is the sift
root i0) the children of i even satisfy it with respect to the parent of i,
then after sifting down at i every parent at or above i0 satisfies it. -/
theorem siftDown_heapFrom {T : Type} {lt : T → T → Bool} (hs : LtSpec lt)
    (i0 : Nat) (l : List T) (i n : Nat) :
    n ≤ l.length → i0 ≤ i →
    (i ≠ i0 → i0 ≤ (i-1)/2) →
    (∀ p j, i0 ≤ p → p ≠ i → (j = 2*p+1 ∨ j = 2*p+2) → j < n →
      lessAt lt l j p = false) →
    (i ≠ i0 → ∀ c, (c = 2*i+1 ∨ c = 2*i+2) → c < n →
      lessAt lt l c ((i-1)/2) = false) →
    HeapFrom lt (siftDown lt l i n) n i0 := by
  induction l, i, n using siftDown.induct lt with
  | case1 l i n j1 h j hlt ih =>
    simp only [j1, j] at *
    simp only [dite_eq_ite] at hlt ih
    intro hn hi0 hpar hA hB
    rw [siftDown]
    simp only [dite_eq_ite] at *
    rw [if_pos h, if_pos hlt]
    set jv := if 2*i+1+1 < n ∧ lessAt lt l (2*i+1+1) (2*i+1) = true
      then 2*i+1+1 else 2*i+1 with hjv
    have hjsplit : (jv = 2*i+1 ∧
        ¬(2*i+1+1 < n ∧ lessAt lt l (2*i+1+1) (2*i+1) = true))
        ∨ (jv = 2*i+1+1 ∧ 2*i+1+1 < n
            ∧ lessAt lt l (2*i+1+1) (2*i+1) = true) := by
      rw [hjv]
      by_cases hc : 2*i+1+1 < n ∧ lessAt lt l (2*i+1+1) (2*i+1) = true
      · right; rw [if_pos hc]; exact ⟨rfl, hc⟩
      · left; rw [if_neg hc]; exact ⟨rfl, hc⟩
    have hjn : jv < n := by rcases hjsplit with ⟨he, _⟩ | ⟨he, hc, _⟩ <;> omega
    have hij : i < jv := by rcases hjsplit with ⟨he, _⟩ | ⟨he, _⟩ <;> omega
    have hin : i < n := by omega
    have hil : i < l.length := by omega
    have hjl : jv < l.length := by omega
    have hchildj : jv = 2*i+1 ∨ jv = 2*i+2 := by
      rcases hjsplit with ⟨he, _⟩ | ⟨he, _⟩ <;> omega
    -- transfer of lessAt across the swap
    have hswap := fun k m => lessAt_swapItems lt l i jv hil hjl k m
    apply ih
    · rw [swapItems_length]; exact hn
    · omega
    · intro _; have : (jv-1)/2 = i := by omega
      rw [this]; omega
    · -- the heap condition away from jv, on the swapped list
      intro p j2 hp hpj hchild hj2n
      rw [hswap j2 p]
      by_cases hpi : p = i
      · have e2 : (if p = i then jv else if p = jv then i else p) = jv := by
          rw [if_pos hpi]
        rw [e2]
        by_cases hj2jv : j2 = jv
        · have e1 : (if j2 = i then jv else if j2 = jv then i else j2) = i := by
            rw [if_neg (by omega : j2 ≠ i), if_pos hj2jv]
          rw [e1]
          exact lessAt_asymm hs hjl hil hlt
        · have hj2i : j2 ≠ i := by omega
          have e1 : (if j2 = i then jv else if j2 = jv then i else j2) = j2 := by
            rw [if_neg hj2i, if_neg hj2jv]
          rw [e1]
          rcases hjsplit with ⟨hjv1, hnc⟩ | ⟨hjv2, h2n, h21⟩
          · have hj2e : j2 = 2*i+1+1 := by omega
            have hno : ¬ lessAt lt l (2*i+1+1) (2*i+1) = true :=
              fun hc => hnc ⟨by omega, hc⟩
            rw [hj2e, hjv1]
            cases hb : lessAt lt l (2*i+1+1) (2*i+1) with
            | false => rfl
            | true => exact absurd hb hno
          · have hj2e : j2 = 2*i+1 := by omega
            have hr1 : 2*i+1+1 < l.length := by omega
            have hr2 : 2*i+1 < l.length := by omega
            rw [hj2e, hjv2]
            exact lessAt_asymm hs hr1 hr2 h21
      · by_cases hj2i : j2 = i
        · have hpe : p = (i-1)/2 := by omega
          have hine : i ≠ i0 := by omega
          have e1 : (if j2 = i then jv else if j2 = jv then i else j2) = jv := by
            rw [if_pos hj2i]
          have e2 : (if p = i then jv else if p = jv then i else p) = p := by
            rw [if_neg hpi, if_neg hpj]
          rw [e1, e2, hpe]
          exact hB hine jv hchildj hjn
        · by_cases hj2jv : j2 = jv
          · exact absurd (show p = i by omega) hpi
          · have e1 : (if j2 = i then jv else if j2 = jv then i else j2) = j2 := by
              rw [if_neg hj2i, if_neg hj2jv]
            have e2 : (if p = i then jv else if p = jv then i else p) = p := by
              rw [if_neg hpi, if_neg hpj]
            rw [e1, e2]
            exact hA p j2 hp hpi hchild hj2n
    · intro hjne c hc hcn
      have hpe : (jv-1)/2 = i := by omega
      rw [hpe, hswap c i]
      have e1 : (if c = i then jv else if c = jv then i else c) = c := by
        rw [if_neg (by omega : c ≠ i), if_neg (by omega : c ≠ jv)]
      have e2 : (if i = i then jv else if i = jv then i else i) = jv := by
        rw [if_pos rfl]
      rw [e1, e2]
      exact hA jv c (by omega) (by omega) hc hcn
  | case2 l i n j1 h j hlt =>
    simp only [j1, j] at *
    simp only [dite_eq_ite] at hlt
    intro hn hi0 hpar hA hB
    rw [siftDown]
    simp only [dite_eq_ite]
    rw [if_pos h, if_neg hlt]
    intro p j2 hp hchild hj2n
    by_cases hpi : p = i
    · set jv := if 2*i+1+1 < n ∧ lessAt lt l (2*i+1+1) (2*i+1) = true
        then 2*i+1+1 else 2*i+1 with hjv
      have hjsplit : (jv = 2*i+1 ∧
          ¬(2*i+1+1 < n ∧ lessAt lt l (2*i+1+1) (2*i+1) = true))
          ∨ (jv = 2*i+1+1 ∧ 2*i+1+1 < n
              ∧ lessAt lt l (2*i+1+1) (2*i+1) = true) := by
        rw [hjv]
        by_cases hc : 2*i+1+1 < n ∧ lessAt lt l (2*i+1+1) (2*i+1) = true
        · right; rw [if_pos hc]; exact ⟨rfl, hc⟩
        · left; rw [if_neg hc]; exact ⟨rfl, hc⟩
      have hflt : lessAt lt l jv i = false := by
        cases hb : lessAt lt l jv i with
        | false => rfl
        | true => exact absurd hb hlt
      have hil : i < l.length := by omega
      rcases hjsplit with ⟨hjv1, hnc⟩ | ⟨hjv2, h2n, h21⟩
      · -- the left child was chosen, so it is not below the parent
        rw [hjv1] at hflt
        rcases hchild with hc1 | hc2
        · rw [hc1, hpi]
          exact hflt
        · -- the right child exists but was not chosen
          have h2nn : 2*i+1+1 < n := by omega
          have hno : lessAt lt l (2*i+1+1) (2*i+1) = false := by
            cases hb : lessAt lt l (2*i+1+1) (2*i+1) with
            | false => rfl
            | true => exact absurd ⟨h2nn, hb⟩ hnc
          have hr1 : 2*i+1+1 < l.length := by omega
          have hr2 : 2*i+1 < l.length := by omega
          have := lessAt_neg_trans hs hr1 hr2 hil hno hflt
          have he : j2 = 2*i+1+1 := by omega
          rw [he, hpi]
          exact this
      · -- the right child was chosen
        rw [hjv2] at hflt
        rcases hchild with hc1 | hc2
        · -- the left child: transitivity through the chosen child
          have hr1 : 2*i+1+1 < l.length := by omega
          have hr2 : 2*i+1 < l.length := by omega
          have hres : lessAt lt l (2*i+1) i = false := by
            cases hb : lessAt lt l (2*i+1) i with
            | false => rfl
            | true =>
              have := lessAt_trans hs hr1 hr2 hil h21 hb
              rw [this] at hflt
              cases hflt
          rw [hc1, hpi]
          exact hres
        · have he : j2 = 2*i+1+1 := by omega
          rw [he, hpi]
          exact hflt
    · exact hA p j2 hp hpi hchild hj2n
  | case3 l i n j1 h =>
    simp only [j1] at *
    intro hn hi0 hpar hA hB
    rw [siftDown]
    simp only [dite_eq_ite]
    rw [if_neg h]
    intro p j2 hp hchild hj2n
    by_cases hpi : p = i
    · subst hpi; omega
    · exact hA p j2 hp hpi hchild hj2n

theorem heapInitLoop_heapFrom {T : Type} {lt : T → T → Bool}
    (hs : LtSpec lt) (n : Nat) :
    ∀ (k : Nat) (l : List T), n ≤ l.length → HeapFrom lt l n k →
      HeapFrom lt (heapInitLoop lt l k n) n 0 := by
  intro k
  induction k with
  | zero => intro l hn hH; exact hH
  | succ k ih =>
    intro l hn hH
    show HeapFrom lt (heapInitLoop lt (siftDown lt l k n) k n) n 0
    apply ih
    · rw [siftDown_length]; exact hn
    · apply siftDown_heapFrom hs k l k n hn (Nat.le_refl k)
        (fun hc => absurd rfl hc)
      · intro p j hp hpk hchild hj
        exact hH p j (by omega) hchild hj
      · exact fun hc => absurd rfl hc

theorem heapInit_isHeap {T : Type} {lt : T → T → Bool} (hs : LtSpec lt)
    (l : List T) : IsHeap lt (heapInit lt l) := by
  have hbase : HeapFrom lt l l.length (l.length / 2) := by
    intro p j hp hchild hj
    omega
  have h := heapInitLoop_heapFrom hs l.length (l.length / 2) l
    (Nat.le_refl _) hbase
  unfold IsHeap
  have hlen : (heapInit lt l).length = l.length :=
    (heapInit_perm lt l).length_eq
  rw [hlen]
  exact h

/-- Correctness of the sift up pass: if every child other than j satisfies
the heap condition, and (unless j is the root) the children of j even
satisfy it with respect to the parent of j, then after sifting up at j
every child satisfies it. -/
theorem siftUp_heapFrom {T : Type} {lt : T → T → Bool} (hs : LtSpec lt)
    (l : List T) (j : Nat) :
    j < l.length →
    (∀ p c, (c = 2*p+1 ∨ c = 2*p+2) → c < l.length → c ≠ j →
      lessAt lt l c p = false) →
    (j ≠ 0 → ∀ c, (c = 2*j+1 ∨ c = 2*j+2) → c < l.length →
      lessAt lt l c ((j-1)/2) = false) →
    ∀ p c, (c = 2*p+1 ∨ c = 2*p+2) → c < (siftUp lt l j).length →
      lessAt lt (siftUp lt l j) c p = false := by
  induction l, j using siftUp.induct lt with
  | case1 l j i h =>
    simp only [i] at h
    intro hjl hA hB p c hchild hc
    have hj0 : j = 0 := by omega
    rw [siftUp]
    simp only [dif_pos h]
    rw [siftUp] at hc
    simp only [dif_pos h] at hc
    exact hA p c hchild hc (by omega)
  | case2 l j i h hlt ih =>
    simp only [i] at *
    intro hjl hA hB p c hchild hc
    have hij : (j-1)/2 < j := by omega
    have hil : (j-1)/2 < l.length := by omega
    have hchildij : j = 2*((j-1)/2)+1 ∨ j = 2*((j-1)/2)+2 := by omega
    rw [siftUp]
    simp only [dif_neg h]
    rw [if_pos hlt]
    rw [siftUp] at hc
    simp only [dif_neg h] at hc
    rw [if_pos hlt] at hc
    have hswap := fun k m =>
      lessAt_swapItems lt l ((j-1)/2) j hil hjl k m
    apply ih
    · rw [swapItems_length]; omega
    · -- heap condition away from the new position (j-1)/2
      intro p2 c2 hchild2 hc2 hc2ne
      rw [swapItems_length] at hc2
      rw [hswap c2 p2]
      by_cases hc2j : c2 = j
      · -- the swapped edge itself: its parent is the new position
        have hp2 : p2 = (j-1)/2 := by omega
        have e1 : (if c2 = (j-1)/2 then j else if c2 = j then (j-1)/2 else c2)
            = (j-1)/2 := by
          rw [if_neg hc2ne, if_pos hc2j]
        have e2 : (if p2 = (j-1)/2 then j else if p2 = j then (j-1)/2 else p2)
            = j := by
          rw [if_pos hp2]
        rw [e1, e2]
        exact lessAt_asymm hs hjl hil hlt
      · have e1 : (if c2 = (j-1)/2 then j else if c2 = j then (j-1)/2 else c2)
            = c2 := by
          rw [if_neg (by omega : c2 ≠ (j-1)/2), if_neg hc2j]
        rw [e1]
        by_cases hp2i : p2 = (j-1)/2
        · -- c2 is the sibling of j under their common parent
          have e2 : (if p2 = (j-1)/2 then j else if p2 = j then (j-1)/2 else p2)
              = j := by rw [if_pos hp2i]
          rw [e2]
          have hsi : lessAt lt l c2 ((j-1)/2) = false := by
            have := hA p2 c2 hchild2 hc2 hc2j
            rw [hp2i] at this
            exact this
          cases hb : lessAt lt l c2 j with
          | false => rfl
          | true =>
            have hcl : c2 < l.length := hc2
            have := lessAt_trans hs hcl hjl hil hb hlt
            rw [this] at hsi
            cases hsi
        · by_cases hp2j : p2 = j
          · -- c2 is a child of j; use the grandparent hypothesis
            have e2 : (if p2 = (j-1)/2 then j else if p2 = j then (j-1)/2 else p2)
                = (j-1)/2 := by rw [if_neg hp2i, if_pos hp2j]
            rw [e2]
            have hj0 : j ≠ 0 := by omega
            apply hB hj0 c2
            · omega
            · exact hc2
          · have e2 : (if p2 = (j-1)/2 then j else if p2 = j then (j-1)/2 else p2)
                = p2 := by rw [if_neg hp2i, if_neg hp2j]
            rw [e2]
            exact hA p2 c2 hchild2 hc2 hc2j
    · -- grandparent hypothesis at the new position
      intro hine c2 hchild2 hc2
      rw [swapItems_length] at hc2
      set g := ((j-1)/2-1)/2 with hg
      have hchildg : (j-1)/2 = 2*g+1 ∨ (j-1)/2 = 2*g+2 := by omega
      have hgl : g < l.length := by omega
      rw [hswap c2 g]
      have e2 : (if g = (j-1)/2 then j else if g = j then (j-1)/2 else g)
          = g := by
        rw [if_neg (by omega : g ≠ (j-1)/2), if_neg (by omega : g ≠ j)]
      rw [e2]
      have hAi : lessAt lt l ((j-1)/2) g = false := by
        have := hA g ((j-1)/2) hchildg hil (by omega)
        exact this
      by_cases hc2j : c2 = j
      · have e1 : (if c2 = (j-1)/2 then j else if c2 = j then (j-1)/2 else c2)
            = (j-1)/2 := by
          rw [if_neg (by omega : c2 ≠ (j-1)/2), if_pos hc2j]
        rw [e1]
        exact hAi
      · have e1 : (if c2 = (j-1)/2 then j else if c2 = j then (j-1)/2 else c2)
            = c2 := by
          rw [if_neg (by omega : c2 ≠ (j-1)/2), if_neg hc2j]
        rw [e1]
        have hs1 : lessAt lt l c2 ((j-1)/2) = false := by
          have := hA ((j-1)/2) c2 (by omega) hc2 hc2j
          exact this
        exact lessAt_neg_trans hs hc2 hil hgl hs1 hAi
    all_goals first
      | exact hchild
      | exact hc
  | case3 l j i h hlt =>
    simp only [i] at *
    intro hjl hA hB p c hchild hc
    rw [siftUp]
    simp only [dif_neg h]
    rw [if_neg hlt]
    rw [siftUp] at hc
    simp only [dif_neg h] at hc
    rw [if_neg hlt] at hc
    by_cases hcj : c = j
    · have hp : p = (j-1)/2 := by omega
      rw [hcj, hp]
      cases hb : lessAt lt l j ((j-1)/2) with
      | false => rfl
      | true => exact absurd hb hlt
    · exact hA p c hchild hc hcj

theorem lessAt_append {T : Type} (lt : T → T → Bool) (l : List T) (x : T)
    (c p : Nat) (hc : c < l.length) (hp : p < l.length) :
    lessAt lt (l ++ [x]) c p = lessAt lt l c p := by
  unfold lessAt
  rw [List.getElem?_append, List.getElem?_append]
  rw [if_pos hc, if_pos hp]

theorem heapPush_isHeap {T : Type} {lt : T → T → Bool} (hs : LtSpec lt)
    (l : List T) (x : T) (hH : IsHeap lt l) :
    IsHeap lt (heapPush lt l x) := by
  unfold heapPush
  intro p c hp hchild hc
  have hlen1 : (l ++ [x]).length = l.length + 1 := by simp
  have hj : (l ++ [x]).length - 1 = l.length := by simp
  apply siftUp_heapFrom hs (l ++ [x]) ((l ++ [x]).length - 1)
  · omega
  · intro p2 c2 hchild2 hc2 hc2ne
    rw [hj] at hc2ne
    have hc2l : c2 < l.length := by omega
    have hp2l : p2 < l.length := by omega
    rw [lessAt_append lt l x c2 p2 hc2l hp2l]
    exact hH p2 c2 (Nat.zero_le _) hchild2 hc2l
  · intro hj0 c2 hchild2 hc2
    rw [hj] at hchild2
    omega
  · exact hchild
  · exact hc

theorem siftDown_getElem?_ge {T : Type} (lt : T → T → Bool) :
    ∀ (l : List T) (i n : Nat), n ≤ l.length → ∀ k, n ≤ k →
      (siftDown lt l i n)[k]? = l[k]? := by
  intro l i n
  induction l, i, n using siftDown.induct lt with
  | case1 l i n j1 h j hlt ih =>
    simp only [j1, j] at *
    simp only [dite_eq_ite] at hlt ih
    intro hn k hk
    rw [siftDown]
    simp only [dite_eq_ite]
    rw [if_pos h, if_pos hlt]
    set jv := if 2*i+1+1 < n ∧ lessAt lt l (2*i+1+1) (2*i+1) = true
      then 2*i+1+1 else 2*i+1 with hjv
    have hjn : jv < n := by
      rw [hjv]; split <;> omega
    have hil : i < l.length := by omega
    have hjl : jv < l.length := by omega
    rw [ih (by rw [swapItems_length]; exact hn) k hk]
    rw [swapItems_getElem? l i jv hil hjl k]
    rw [if_neg (by omega : k ≠ i), if_neg (by omega : k ≠ jv)]
  | case2 l i n j1 h j hlt =>
    simp only [j1, j] at *
    simp only [dite_eq_ite] at hlt
    intro hn k hk
    rw [siftDown]
    simp only [dite_eq_ite]
    rw [if_pos h, if_neg hlt]
  | case3 l i n j1 h =>
    simp only [j1] at *
    intro hn k hk
    rw [siftDown]
    simp only [dite_eq_ite]
    rw [if_neg h]

theorem dropLast_getElem? {T : Type} (l : List T) (k : Nat)
    (hk : k < l.length - 1) : l.dropLast[k]? = l[k]? := by
  rw [List.dropLast_eq_take, List.getElem?_take]
  simp [hk]

theorem heapPop_minSpec {T : Type} {lt : T → T → Bool} (hs : LtSpec lt)
    (l : List T) (hH : IsHeap lt l) (hne : l ≠ []) :
    ∃ v rest, heapPop lt l = some (v, rest) ∧ List.Perm (v :: rest) l ∧
      IsHeap lt rest ∧ (∀ x ∈ l, lt x v = false) := by
  have h0l : 0 < l.length := List.length_pos.mpr hne
  set n := l.length - 1 with hn
  have hnl : n < l.length := by omega
  set l1 := swapItems l 0 n with hl1
  set l2 := siftDown lt l1 0 n with hl2
  have hlen1 : l1.length = l.length := swapItems_length l 0 n
  have hlen2 : l2.length = l.length := by
    rw [hl2, siftDown_length, hlen1]
  have hroot := List.getElem?_eq_getElem h0l
  have ha : l2[n]? = l[0]? := by
    rw [hl2, siftDown_getElem?_ge lt l1 0 n (by omega) n (Nat.le_refl n)]
    rw [hl1, swapItems_getElem? l 0 n h0l hnl n]
    have : (if n = 0 then n else if n = n then 0 else n) = 0 := by
      split
      · omega
      · simp
    rw [this]
  have hglast : l2.getLast? = l[0]? := by
    rw [List.getLast?_eq_getElem?, hlen2, ← hn]
    exact ha
  have hpop : heapPop lt l = some (l.get ⟨0, h0l⟩, l2.dropLast) := by
    have hcons : ∃ y ys, l = y :: ys := by
      cases l with
      | nil => exact absurd rfl hne
      | cons y ys => exact ⟨y, ys, rfl⟩
    obtain ⟨y, ys, hye⟩ := hcons
    subst hye
    show (siftDown lt (swapItems (y :: ys) 0 ((y :: ys).length - 1)) 0
        ((y :: ys).length - 1)).getLast?.map
        (fun v => (v, (siftDown lt (swapItems (y :: ys) 0
          ((y :: ys).length - 1)) 0
          ((y :: ys).length - 1)).dropLast)) = _
    rw [show (siftDown lt (swapItems (y :: ys) 0 ((y :: ys).length - 1)) 0
        ((y :: ys).length - 1)) = l2 by rw [hl2, hl1, hn]]
    rw [hglast, hroot]
    rfl
  have hne2 : l2 ≠ [] := by
    intro hc
    rw [hc] at hlen2
    simp at hlen2
    omega
  have hlast : l2.getLast hne2 = l.get ⟨0, h0l⟩ := by
    have := List.getLast?_eq_getLast l2 hne2
    rw [hglast, hroot] at this
    exact (Option.some.injEq _ _).mp this.symm
  refine ⟨l.get ⟨0, h0l⟩, l2.dropLast, hpop, ?_, ?_, ?_⟩
  · -- permutation
    have hperm2 : List.Perm l2 l := by
      rw [hl2, hl1]
      exact (siftDown_perm lt _ 0 n).trans (swapItems_perm l 0 n)
    have hd := List.dropLast_append_getLast hne2
    rw [hlast] at hd
    have h3 := (List.perm_append_singleton (l.get ⟨0, h0l⟩) l2.dropLast).symm
    rw [hd] at h3
    exact h3.trans hperm2
  · -- the rest is a heap
    have hH1 : ∀ p j, 1 ≤ p → (j = 2*p+1 ∨ j = 2*p+2) → j < n →
        lessAt lt l1 j p = false := by
      intro p j hp hchild hj
      rw [hl1, lessAt_swapItems lt l 0 n h0l hnl j p]
      rw [if_neg (by omega : j ≠ 0), if_neg (by omega : j ≠ n)]
      rw [if_neg (by omega : p ≠ 0), if_neg (by omega : p ≠ n)]
      exact hH p j (Nat.zero_le _) hchild (by omega)
    have hH2 : HeapFrom lt l2 n 0 := by
      rw [hl2]
      apply siftDown_heapFrom hs 0 l1 0 n (by omega) (Nat.le_refl 0)
        (fun hc => absurd rfl hc)
      · intro p j hp hpne hchild hj
        exact hH1 p j (by omega) hchild hj
      · exact fun hc => absurd rfl hc
    intro p j hp hchild hj
    have hjlen : j < n := by
      have := List.length_dropLast l2
      omega
    unfold lessAt
    rw [dropLast_getElem? l2 j (by omega), dropLast_getElem? l2 p
      (by have := List.length_dropLast l2; omega)]
    have := hH2 p j hp hchild hjlen
    unfold lessAt at this
    exact this
  · -- minimality of the returned element
    intro x hx
    obtain ⟨k, hk, hkx⟩ := List.mem_iff_getElem.mp hx
    have hmin := heapFrom_zero_min hs l l.length (Nat.le_refl _) hH k hk
    rw [lessAt_get lt l k 0 hk h0l] at hmin
    rw [← hkx]
    exact hmin

/-! ### The merge loop invariant -/

/-- All elements of all still-unproduced source suffixes, in source order. -/
def pullsRems {T : Type} (pulls : List (Option (List T))) : List T :=
  (pulls.map (fun o => o.getD [])).flatten

theorem pullsRems_nil {T : Type} :
    pullsRems ([] : List (Option (List T))) = [] := rfl

theorem mem_pullsRems {T : Type} (pulls : List (Option (List T))) (x : T) :
    x ∈ pullsRems pulls ↔
      ∃ (i : Nat) (rem : List T), pulls[i]? = some (some rem) ∧ x ∈ rem := by
  unfold pullsRems
  rw [List.mem_flatten]
  constructor
  · rintro ⟨l2, hl2, hx⟩
    rw [List.mem_map] at hl2
    obtain ⟨o, ho, rfl⟩ := hl2
    obtain ⟨i, hi, hoe⟩ := List.mem_iff_getElem.mp ho
    cases o with
    | none => simp at hx
    | some rem =>
      refine ⟨i, rem, ?_, by simpa using hx⟩
      rw [List.getElem?_eq_getElem hi, hoe]
  · rintro ⟨i, rem, hget, hx⟩
    refine ⟨rem, ?_, hx⟩
    rw [List.mem_map]
    exact ⟨some rem, List.getElem?_mem hget, rfl⟩

theorem pullsRems_set_cons {T : Type} :
    ∀ (pulls : List (Option (List T))) (i : Nat) (h : T) (t : List T),
      pulls[i]? = some (some (h :: t)) →
      List.Perm (pullsRems pulls) (h :: pullsRems (pulls.set i (some t))) := by
  intro pulls
  induction pulls with
  | nil => intro i h t hg; simp at hg
  | cons o rest ih =>
    intro i h t hg
    cases i with
    | zero =>
      simp only [List.getElem?_cons_zero, Option.some.injEq] at hg
      subst hg
      simp only [List.set_cons_zero, pullsRems, List.map_cons, List.flatten_cons]
      simp only [Option.getD_some]
      exact List.Perm.refl _
    | succ i =>
      simp only [List.getElem?_cons_succ] at hg
      have hr := ih i h t hg
      simp only [List.set_cons_succ, pullsRems, List.map_cons, List.flatten_cons]
      unfold pullsRems at hr
      have h1 : List.Perm
          (o.getD [] ++ (rest.map (fun o => o.getD [])).flatten)
          (o.getD [] ++ (h :: ((rest.set i (some t)).map
            (fun o => o.getD [])).flatten)) :=
        List.Perm.append_left _ hr
      have h2 : List.Perm
          (o.getD [] ++ (h :: ((rest.set i (some t)).map
            (fun o => o.getD [])).flatten))
          (h :: (o.getD [] ++ ((rest.set i (some t)).map
            (fun o => o.getD [])).flatten)) :=
        List.perm_middle
      exact h1.trans h2

theorem pullsRems_eq_nil {T : Type} (pulls : List (Option (List T)))
    (h : ∀ (i : Nat) (rem : List T), pulls[i]? = some (some rem) → rem = []) :
    pullsRems pulls = [] := by
  rw [List.eq_nil_iff_forall_not_mem]
  intro x hx
  rw [mem_pullsRems] at hx
  obtain ⟨i, rem, hget, hxm⟩ := hx
  rw [h i rem hget] at hxm
  simp at hxm

structure SafeInv {T : Type} (index : T → Nat) (items : List T)
    (pulls : List (Option (List T))) : Prop where
  distinct : items.Pairwise (fun a b => index a ≠ index b)
  active : ∀ x ∈ items, ∃ rem : List T,
    pulls[index x]? = some (some rem) ∧ ∀ y ∈ rem, index y = index x
  ghost : ∀ (i : Nat) (rem : List T), pulls[i]? = some (some rem) →
    rem ≠ [] → ∃ x ∈ items, index x = i

theorem getElem?_some_lt {T : Type} {l : List T} {i : Nat} {a : T}
    (h : l[i]? = some a) : i < l.length := by
  by_contra hc
  rw [List.getElem?_eq_none (by omega)] at h
  cases h

/-- One continued iteration of the merge loop from a safe nonempty state:
the popped element comes off the frontier, its own source is pulled, and
the step never faults. -/
theorem mergeStep_spec {T : Type} (lt : T → T → Bool) (index : T → Nat)
    (items : List T) (pulls : List (Option (List T)))
    (hinv : SafeInv index items pulls) (hne : items ≠ []) :
    ∃ (v : T) (rest : List T) (rem : List T),
      heapPop lt items = some (v, rest) ∧
      List.Perm (v :: rest) items ∧
      pulls[index v]? = some (some rem) ∧
      (∀ y ∈ rem, index y = index v) ∧
      ((rem = [] ∧ mergeStep lt index (items, pulls)
          = .ok (some (v, (rest, pulls)))) ∨
       (∃ h t, rem = h :: t ∧ mergeStep lt index (items, pulls)
          = .ok (some (v, (heapPush lt rest h,
              pulls.set (index v) (some t)))))) := by
  obtain ⟨v, rest, hpop, hperm, _⟩ := heapPop_some lt items hne
  have hvmem : v ∈ items := hperm.mem_iff.mp (List.mem_cons_self v rest)
  obtain ⟨rem, hrem, htag⟩ := hinv.active v hvmem
  refine ⟨v, rest, rem, hpop, hperm, hrem, htag, ?_⟩
  cases rem with
  | nil =>
    left
    refine ⟨rfl, ?_⟩
    unfold mergeStep
    rw [hpop]
    show (match refill lt index v rest pulls with
      | Except.error e => Except.error e
      | Except.ok st2 => Except.ok (some (v, st2))) = _
    unfold refill
    rw [hrem]
  | cons h t =>
    right
    refine ⟨h, t, rfl, ?_⟩
    unfold mergeStep
    rw [hpop]
    show (match refill lt index v rest pulls with
      | Except.error e => Except.error e
      | Except.ok st2 => Except.ok (some (v, st2))) = _
    unfold refill
    rw [hrem]

theorem safeInv_rest {T : Type} {index : T → Nat} {items rest : List T}
    {v : T} {pulls : List (Option (List T))}
    (hinv : SafeInv index items pulls)
    (hperm : List.Perm (v :: rest) items) :
    rest.Pairwise (fun a b => index a ≠ index b)
      ∧ (∀ y ∈ rest, index v ≠ index y) ∧ ∀ x ∈ rest, x ∈ items := by
  have hpw : (v :: rest).Pairwise (fun a b => index a ≠ index b) :=
    (hperm.pairwise_iff (fun hab hc => hab hc.symm)).mpr hinv.distinct
  rw [List.pairwise_cons] at hpw
  exact ⟨hpw.2, hpw.1, fun x hx =>
    hperm.mem_iff.mp (List.mem_cons_of_mem v hx)⟩

/-- Preservation of the safety invariant when the pulled source was
exhausted. -/
theorem safeInv_step_nil {T : Type} {index : T → Nat} {items rest : List T}
    {v : T} {pulls : List (Option (List T))}
    (hinv : SafeInv index items pulls)
    (hperm : List.Perm (v :: rest) items)
    (hrem : pulls[index v]? = some (some ([] : List T))) :
    SafeInv index rest pulls := by
  obtain ⟨hdist, hvrest, hsub⟩ := safeInv_rest hinv hperm
  refine ⟨hdist, ?_, ?_⟩
  · intro x hx
    exact hinv.active x (hsub x hx)
  · intro i rem2 hget hne2
    obtain ⟨x, hxm, hxi⟩ := hinv.ghost i rem2 hget hne2
    have : x = v ∨ x ∈ rest := by
      have := hperm.mem_iff.mpr hxm
      simpa using this
    rcases this with rfl | hxr
    · rw [hxi] at hrem
      rw [hget] at hrem
      cases hrem
      exact absurd rfl hne2
    · exact ⟨x, hxr, hxi⟩

/-- Preservation of the safety invariant when the pulled source yielded a
fresh element, which is pushed onto the heap. -/
theorem safeInv_step_cons {T : Type} {index : T → Nat} {lt : T → T → Bool}
    {items rest : List T} {v h : T} {t : List T}
    {pulls : List (Option (List T))}
    (hinv : SafeInv index items pulls)
    (hperm : List.Perm (v :: rest) items)
    (hrem : pulls[index v]? = some (some (h :: t)))
    (htag : ∀ y ∈ h :: t, index y = index v) :
    SafeInv index (heapPush lt rest h)
      (pulls.set (index v) (some t)) := by
  obtain ⟨hdist, hvrest, hsub⟩ := safeInv_rest hinv hperm
  have hhi : index h = index v := htag h (List.mem_cons_self h t)
  have hivl : index v < pulls.length := getElem?_some_lt hrem
  have hpushperm := heapPush_perm lt rest h
  have hmem_push : ∀ x, x ∈ heapPush lt rest h ↔ (x = h ∨ x ∈ rest) := by
    intro x
    rw [hpushperm.mem_iff]
    simp
  refine ⟨?_, ?_, ?_⟩
  · apply (hpushperm.pairwise_iff (fun hab hc => hab hc.symm)).mpr
    rw [List.pairwise_cons]
    refine ⟨?_, hdist⟩
    intro y hy
    rw [hhi]
    exact hvrest y hy
  · intro x hx
    rcases (hmem_push x).mp hx with rfl | hxr
    · refine ⟨t, ?_, ?_⟩
      · rw [hhi]
        rw [List.getElem?_set_eq_of_lt _ hivl]
      · intro y hy
        rw [htag y (List.mem_cons_of_mem x hy), hhi]
    · obtain ⟨rem2, hget2, htag2⟩ := hinv.active x (hsub x hxr)
      refine ⟨rem2, ?_, htag2⟩
      rw [List.getElem?_set_ne, hget2]
      intro hc
      exact hvrest x hxr (by rw [hc])
  · intro i rem2 hget hne2
    by_cases hiv : i = index v
    · subst hiv
      rw [List.getElem?_set_eq_of_lt _ hivl] at hget
      cases hget
      exact ⟨h, (hmem_push h).mpr (Or.inl rfl), hhi⟩
    · rw [List.getElem?_set_ne (fun hc => hiv hc.symm)] at hget
      obtain ⟨x, hxm, hxi⟩ := hinv.ghost i rem2 hget hne2
      have : x = v ∨ x ∈ rest := by
        have := hperm.mem_iff.mpr hxm
        simpa using this
      rcases this with rfl | hxr
      · exact absurd hxi.symm (by rw [eq_comm] at hxi ⊢; exact fun hc => hiv hc.symm)
      · exact ⟨x, (hmem_push x).mpr (Or.inr hxr), hxi⟩

theorem runAll_eq_terminal {T : Type} (lt : T → T → Bool)
    (index : T → Nat) (st : List T × List (Option (List T)))
    (h : mergeStep lt index st = .ok none) :
    runAll lt index st = .ok ([], st, 0) := by
  rw [runAll]
  split
  next heq => rw [h] at heq; cases heq
  next heq => rfl
  next v st2 heq =>
    rw [h] at heq
    cases heq

theorem runAll_eq_step {T : Type} (lt : T → T → Bool) (index : T → Nat)
    (st st2 : List T × List (Option (List T))) (v : T)
    (h : mergeStep lt index st = .ok (some (v, st2))) :
    runAll lt index st =
      match runAll lt index st2 with
      | .error e => .error e
      | .ok (out, fin, c) => .ok (v :: out, fin, c + 1) := by
  rw [runAll]
  split
  next heq => rw [h] at heq; cases heq
  next heq => rw [h] at heq; cases heq
  next v2 st3 heq =>
    rw [h] at heq
    cases heq
    rfl

theorem mergeStep_empty {T : Type} (lt : T → T → Bool) (index : T → Nat)
    (pulls : List (Option (List T))) :
    mergeStep lt index (([] : List T), pulls) = .ok none := rfl

/-- The merge loop from a safe state never faults, emits one element per
loop pull call, and emits exactly the frontier plus all unproduced source
elements (each exactly once). -/
theorem runAll_safe {T : Type} (lt : T → T → Bool) (index : T → Nat) :
    ∀ (N : Nat) (items : List T) (pulls : List (Option (List T))),
      stateSize (items, pulls) ≤ N → SafeInv index items pulls →
      ∃ out fin, runAll lt index (items, pulls) = .ok (out, fin, out.length)
        ∧ List.Perm out (items ++ pullsRems pulls) := by
  intro N
  induction N with
  | zero =>
    intro items pulls hsz hinv
    have hni : items = [] := by
      simp only [stateSize] at hsz
      cases items with
      | nil => rfl
      | cons a b => simp at hsz
    subst hni
    refine ⟨[], ([], pulls), ?_, ?_⟩
    · exact runAll_eq_terminal lt index _ (mergeStep_empty lt index pulls)
    · have : pullsRems pulls = [] := by
        apply pullsRems_eq_nil
        intro i rem hget
        by_contra hc
        obtain ⟨x, hx, _⟩ := hinv.ghost i rem hget hc
        simp at hx
      rw [this]
      exact List.Perm.refl _
  | succ N ih =>
    intro items pulls hsz hinv
    by_cases hne : items = []
    · subst hne
      refine ⟨[], ([], pulls), ?_, ?_⟩
      · exact runAll_eq_terminal lt index _ (mergeStep_empty lt index pulls)
      · have : pullsRems pulls = [] := by
          apply pullsRems_eq_nil
          intro i rem hget
          by_contra hc
          obtain ⟨x, hx, _⟩ := hinv.ghost i rem hget hc
          simp at hx
        rw [this]
        exact List.Perm.refl _
    · obtain ⟨v, rest, rem, hpop, hperm, hrem, htag, hcase⟩ :=
        mergeStep_spec lt index items pulls hinv hne
      rcases hcase with ⟨hrnil, hms⟩ | ⟨h, t, hrcons, hms⟩
      · subst hrnil
        have hsz2 : stateSize (rest, pulls) ≤ N := by
          have := mergeStep_size lt index (items, pulls) v (rest, pulls) hms
          omega
        have hinv2 := safeInv_step_nil hinv hperm hrem
        obtain ⟨out2, fin2, hrun2, hperm2⟩ := ih rest pulls hsz2 hinv2
        refine ⟨v :: out2, fin2, ?_, ?_⟩
        · rw [runAll_eq_step lt index _ _ v hms, hrun2]
          rfl
        · have h1 : List.Perm (v :: out2)
              (v :: (rest ++ pullsRems pulls)) := List.Perm.cons v hperm2
          have h2 : List.Perm ((v :: rest) ++ pullsRems pulls)
              (items ++ pullsRems pulls) :=
            hperm.append_right (pullsRems pulls)
          exact h1.trans h2
      · subst hrcons
        have hsz2 : stateSize (heapPush lt rest h,
            pulls.set (index v) (some t)) ≤ N := by
          have := mergeStep_size lt index (items, pulls) v _ hms
          omega
        have hinv2 := @safeInv_step_cons T index lt items rest v h t pulls
          hinv hperm hrem htag
        obtain ⟨out2, fin2, hrun2, hperm2⟩ := ih _ _ hsz2 hinv2
        refine ⟨v :: out2, fin2, ?_, ?_⟩
        · rw [runAll_eq_step lt index _ _ v hms, hrun2]
          rfl
        · have hps := heapPush_perm lt rest h
          have h1 : List.Perm (v :: out2)
              (v :: ((h :: rest) ++ pullsRems (pulls.set (index v) (some t))))
              := by
            refine List.Perm.cons v (hperm2.trans ?_)
            exact (hps.append_right _)
          have h2 : List.Perm
              ((h :: rest) ++ pullsRems (pulls.set (index v) (some t)))
              (rest ++ (h :: pullsRems (pulls.set (index v) (some t)))) := by
            exact (List.perm_middle).symm
          have h3 : List.Perm
              (rest ++ (h :: pullsRems (pulls.set (index v) (some t))))
              (rest ++ pullsRems pulls) := by
            apply List.Perm.append_left
            exact (pullsRems_set_cons pulls (index v) h t hrem).symm
          have h4 : List.Perm ((v :: rest) ++ pullsRems pulls)
              (items ++ pullsRems pulls) :=
            hperm.append_right (pullsRems pulls)
          have h5 := h1.trans (List.Perm.cons v (h2.trans h3))
          exact h5.trans h4

/-! ### The order invariant of the merge loop -/

theorem mergeLess_false_of_le_same {T : Type} {cmp : T → T → Int}
    {index : T → Nat} (hc : IsComparator cmp) {v y : T}
    (h1 : cmp v y ≤ 0) (h2 : index y = index v) :
    mergeLess cmp index y v = false := by
  rw [mergeLess_false_iff]
  have := hc.flip_sign v y
  have := hc.flip_sign y v
  omega

theorem mergeLess_false_through {T : Type} {cmp : T → T → Int}
    {index : T → Nat} (hc : IsComparator cmp) {e v y : T}
    (h1 : cmp e y ≤ 0) (h2 : mergeLess cmp index e v = false)
    (h3 : index y = index e) : mergeLess cmp index y v = false := by
  rw [mergeLess_false_iff] at h2 ⊢
  rcases h2 with h2a | ⟨h2a, h2i⟩
  · have hev : cmp v e < 0 := (hc.flip_sign v e).mpr h2a
    have := hc.lt_le_trans hev h1
    have := hc.flip_sign v y
    omega
  · have hz := hc.zero_symm h2a
    have hvy := hc.le_trans v e y (by omega) h1
    have := hc.flip_sign v y
    have h2f := hc.flip_sign y v
    by_cases hzy : cmp y v = 0
    · right
      exact ⟨hzy, by omega⟩
    · left
      omega

/-- The ordering invariant of the merge loop state: the frontier is a
binary heap for the Less order; every unproduced source suffix is sorted
per the comparator; and each frontier element is no greater than every
unproduced element of its own source. -/
structure OrderInv {T : Type} (cmp : T → T → Int) (index : T → Nat)
    (items : List T) (pulls : List (Option (List T))) : Prop where
  heap : IsHeap (mergeLess cmp index) items
  sortedRem : ∀ (i : Nat) (rem : List T), pulls[i]? = some (some rem) →
    List.Pairwise (fun a b => cmp a b ≤ 0) rem
  dom : ∀ x ∈ items, ∀ (rem : List T),
    pulls[index x]? = some (some rem) → ∀ y ∈ rem, cmp x y ≤ 0

/-- Every element still to be emitted after a safe, ordered state pops its
minimum v is at least v in the Less order. -/
theorem pre_bound {T : Type} {cmp : T → T → Int} {index : T → Nat}
    (hc : IsComparator cmp) {items : List T}
    {pulls : List (Option (List T))} {v : T}
    (hinv : SafeInv index items pulls)
    (hord : OrderInv cmp index items pulls)
    (hmin : ∀ x ∈ items, mergeLess cmp index x v = false) :
    ∀ w ∈ items ++ pullsRems pulls, mergeLess cmp index w v = false := by
  intro w hw
  rw [List.mem_append] at hw
  rcases hw with hw | hw
  · exact hmin w hw
  · rw [mem_pullsRems] at hw
    obtain ⟨i, rem, hget, hwm⟩ := hw
    have hne : rem ≠ [] := fun hc2 => by
      rw [hc2] at hwm
      simp at hwm
    obtain ⟨e, hem, hei⟩ := hinv.ghost i rem hget hne
    obtain ⟨rem2, hget2, htag2⟩ := hinv.active e hem
    rw [hei, hget] at hget2
    cases hget2
    have hcmp : cmp e w ≤ 0 := by
      apply hord.dom e hem rem
      · rw [hei]
        exact hget
      · exact hwm
    exact mergeLess_false_through hc hcmp (hmin e hem) (htag2 w hwm)

theorem orderInv_step_nil {T : Type} {cmp : T → T → Int} {index : T → Nat}
    (hc : IsComparator cmp) {items rest : List T} {v : T}
    {pulls : List (Option (List T))}
    (hord : OrderInv cmp index items pulls)
    (hpop : heapPop (mergeLess cmp index) items = some (v, rest))
    (hne : items ≠ []) (hperm : List.Perm (v :: rest) items) :
    OrderInv cmp index rest pulls := by
  obtain ⟨v2, rest2, hpop2, _, hheap2, _⟩ :=
    heapPop_minSpec (mergeLess_ltSpec index hc) items hord.heap hne
  rw [hpop] at hpop2
  cases hpop2
  refine ⟨hheap2, hord.sortedRem, ?_⟩
  intro x hx rem hget y hy
  have hxm : x ∈ items := hperm.mem_iff.mp (List.mem_cons_of_mem v hx)
  exact hord.dom x hxm rem hget y hy

theorem orderInv_step_cons {T : Type} {cmp : T → T → Int}
    {index : T → Nat} (hc : IsComparator cmp) {items rest : List T}
    {v h : T} {t : List T} {pulls : List (Option (List T))}
    (hinv : SafeInv index items pulls)
    (hord : OrderInv cmp index items pulls)
    (hpop : heapPop (mergeLess cmp index) items = some (v, rest))
    (hne : items ≠ []) (hperm : List.Perm (v :: rest) items)
    (hrem : pulls[index v]? = some (some (h :: t))) :
    OrderInv cmp index (heapPush (mergeLess cmp index) rest h)
      (pulls.set (index v) (some t)) := by
  obtain ⟨v2, rest2, hpop2, _, hheap2, _⟩ :=
    heapPop_minSpec (mergeLess_ltSpec index hc) items hord.heap hne
  rw [hpop] at hpop2
  cases hpop2
  obtain ⟨_, hvrest, hsub⟩ := safeInv_rest hinv hperm
  have hivl : index v < pulls.length := getElem?_some_lt hrem
  have hsortv := hord.sortedRem (index v) (h :: t) hrem
  rw [List.pairwise_cons] at hsortv
  refine ⟨?_, ?_, ?_⟩
  · exact heapPush_isHeap (mergeLess_ltSpec index hc) rest h hheap2
  · intro i rem hget
    by_cases hiv : i = index v
    · subst hiv
      rw [List.getElem?_set_eq_of_lt _ hivl] at hget
      cases hget
      exact hsortv.2
    · rw [List.getElem?_set_ne (fun hc2 => hiv hc2.symm)] at hget
      exact hord.sortedRem i rem hget
  · intro x hx rem hget y hy
    have hmem : x = h ∨ x ∈ rest := by
      have := (heapPush_perm (mergeLess cmp index) rest h).mem_iff.mp hx
      simpa using this
    obtain ⟨rem0, hget0, htag0⟩ := hinv.active v
      (hperm.mem_iff.mp (List.mem_cons_self v rest))
    rw [hrem] at hget0
    cases hget0
    rcases hmem with rfl | hxr
    · have hxi : index x = index v := htag0 x (List.mem_cons_self x t)
      rw [hxi, List.getElem?_set_eq_of_lt _ hivl] at hget
      cases hget
      exact hsortv.1 y hy
    · have hxi : index x ≠ index v := fun hc2 => hvrest x hxr hc2.symm
      rw [List.getElem?_set_ne (fun hc2 => hxi hc2.symm)] at hget
      exact hord.dom x (hsub x hxr) rem hget y hy

/-- The output of the merge loop from a safe, ordered state is sorted with
respect to the Less order (comparator first, source index on ties). -/
theorem runAll_sorted {T : Type} (cmp : T → T → Int) (index : T → Nat)
    (hc : IsComparator cmp) :
    ∀ (N : Nat) (items : List T) (pulls : List (Option (List T))),
      stateSize (items, pulls) ≤ N → SafeInv index items pulls →
      OrderInv cmp index items pulls →
      ∀ out fin c,
        runAll (mergeLess cmp index) index (items, pulls)
          = .ok (out, fin, c) →
        List.Pairwise (fun a b => mergeLess cmp index b a = false) out := by
  intro N
  induction N with
  | zero =>
    intro items pulls hsz hinv hord out fin c hrun
    have hni : items = [] := by
      simp only [stateSize] at hsz
      cases items with
      | nil => rfl
      | cons a b => simp at hsz
    subst hni
    rw [runAll_eq_terminal _ index _ (mergeStep_empty _ index pulls)] at hrun
    cases hrun
    exact List.Pairwise.nil
  | succ N ih =>
    intro items pulls hsz hinv hord out fin c hrun
    by_cases hne : items = []
    · subst hne
      rw [runAll_eq_terminal _ index _ (mergeStep_empty _ index pulls)]
        at hrun
      cases hrun
      exact List.Pairwise.nil
    · obtain ⟨v, rest, rem, hpop, hperm, hrem, htag, hcase⟩ :=
        mergeStep_spec (mergeLess cmp index) index items pulls hinv hne
      obtain ⟨v2, rest2, hpop2, _, _, hminl⟩ :=
        heapPop_minSpec (mergeLess_ltSpec index hc) items hord.heap hne
      rw [hpop] at hpop2
      cases hpop2
      have hmin : ∀ x ∈ items, mergeLess cmp index x v = false := hminl
      have hball := pre_bound hc hinv hord hmin
      obtain ⟨outPre, finPre, hrunPre, hpermPre⟩ :=
        runAll_safe (mergeLess cmp index) index (N+1) items pulls hsz hinv
      rcases hcase with ⟨hrnil, hms⟩ | ⟨h, t, hrcons, hms⟩
      · subst hrnil
        have hsz2 : stateSize (rest, pulls) ≤ N := by
          have := mergeStep_size (mergeLess cmp index) index
            (items, pulls) v (rest, pulls) hms
          omega
        have hinv2 := safeInv_step_nil hinv hperm hrem
        have hord2 := orderInv_step_nil hc hord hpop hne hperm
        obtain ⟨out2, fin2, hrun2, _⟩ :=
          runAll_safe (mergeLess cmp index) index N rest pulls hsz2 hinv2
        rw [runAll_eq_step _ index _ _ v hms, hrun2] at hrun
        cases hrun
        rw [runAll_eq_step _ index _ _ v hms, hrun2] at hrunPre
        cases hrunPre
        refine List.Pairwise.cons ?_ ?_
        · intro w hw
          apply hball
          exact hpermPre.subset (List.mem_cons_of_mem v hw)
        · exact ih rest pulls hsz2 hinv2 hord2 _ _ _ hrun2
      · subst hrcons
        have hsz2 : stateSize (heapPush (mergeLess cmp index) rest h,
            pulls.set (index v) (some t)) ≤ N := by
          have := mergeStep_size (mergeLess cmp index) index
            (items, pulls) v _ hms
          omega
        have hinv2 := @safeInv_step_cons T index (mergeLess cmp index)
          items rest v h t pulls hinv hperm hrem htag
        have hord2 := orderInv_step_cons hc hinv hord hpop hne hperm hrem
        obtain ⟨out2, fin2, hrun2, _⟩ :=
          runAll_safe (mergeLess cmp index) index N _ _ hsz2 hinv2
        rw [runAll_eq_step _ index _ _ v hms, hrun2] at hrun
        cases hrun
        rw [runAll_eq_step _ index _ _ v hms, hrun2] at hrunPre
        cases hrunPre
        refine List.Pairwise.cons ?_ ?_
        · intro w hw
          apply hball
          exact hpermPre.subset (List.mem_cons_of_mem v hw)
        · exact ih _ _ hsz2 hinv2 hord2 _ _ _ hrun2

/-! ### The initialization phase -/

/-- The sources handed to the engine tag each element with its source
position, offset by b (the entry at position i holds elements tagged
b + i); this is what wrapSeq / wrapSeq2 produce. -/
def TaggedFrom {T : Type} (index : T → Nat) (b : Nat)
    (seqs : List (Option (List T))) : Prop :=
  ∀ (i : Nat) (s : List T), seqs[i]? = some (some s) →
    ∀ y ∈ s, index y = b + i

/-- Every non-nil source is sorted per the comparator. -/
def SortedSeqs {T : Type} (cmp : T → T → Int)
    (seqs : List (Option (List T))) : Prop :=
  ∀ (i : Nat) (s : List T), seqs[i]? = some (some s) →
    s.Pairwise (fun a b => cmp a b ≤ 0)

theorem taggedFrom_cons {T : Type} {index : T → Nat} {b : Nat}
    {s : Option (List T)} {rest : List (Option (List T))}
    (h : TaggedFrom index b (s :: rest)) :
    (∀ (l : List T), s = some l → ∀ y ∈ l, index y = b) ∧
      TaggedFrom index (b+1) rest := by
  constructor
  · intro l hl y hy
    have := h 0 l (by rw [hl]; simp) y hy
    omega
  · intro i l hl y hy
    have := h (i+1) l (by simpa using hl) y hy
    omega

theorem initFrontier_spec {T : Type} (index : T → Nat) :
    ∀ (seqs : List (Option (List T))) (b : Nat), TaggedFrom index b seqs →
      ((initFrontier seqs).1.Pairwise (fun x y => index x < index y)) ∧
      (∀ x ∈ (initFrontier seqs).1, ∃ (i : Nat) (t : List T),
        seqs[i]? = some (some (x :: t)) ∧ index x = b + i ∧
        (initFrontier seqs).2[i]? = some (some t)) ∧
      (∀ (i : Nat) (rem : List T),
        (initFrontier seqs).2[i]? = some (some rem) →
        ∃ (s : List T), seqs[i]? = some (some s) ∧ rem = s.tail ∧ s ≠ [] ∧
          (rem ≠ [] → ∃ x ∈ (initFrontier seqs).1, index x = b + i)) := by
  intro seqs
  induction seqs with
  | nil =>
    intro b htag
    refine ⟨List.Pairwise.nil, ?_, ?_⟩
    · intro x hx
      simp [initFrontier] at hx
    · intro i rem hget
      simp [initFrontier] at hget
  | cons s rest ih =>
    intro b htag
    obtain ⟨htag0, htagr⟩ := taggedFrom_cons htag
    obtain ⟨ihPW, ihItems, ihPulls⟩ := ih (b+1) htagr
    cases s with
    | none =>
      simp only [initFrontier, probeSource]
      refine ⟨ihPW, ?_, ?_⟩
      · intro x hx
        obtain ⟨i, t, hseq, hidx, hpl⟩ := ihItems x hx
        exact ⟨i+1, t, by simpa using hseq, by omega, by simpa using hpl⟩
      · intro i rem hget
        cases i with
        | zero => simp at hget
        | succ i =>
          simp only [List.getElem?_cons_succ] at hget
          obtain ⟨s2, hseq, hrem, hsne, hwit⟩ := ihPulls i rem hget
          refine ⟨s2, by simpa using hseq, hrem, hsne, ?_⟩
          intro hrne
          obtain ⟨x, hx, hxi⟩ := hwit hrne
          exact ⟨x, hx, by omega⟩
    | some l =>
      cases l with
      | nil =>
        simp only [initFrontier, probeSource]
        refine ⟨ihPW, ?_, ?_⟩
        · intro x hx
          obtain ⟨i, t, hseq, hidx, hpl⟩ := ihItems x hx
          exact ⟨i+1, t, by simpa using hseq, by omega, by simpa using hpl⟩
        · intro i rem hget
          cases i with
          | zero => simp at hget
          | succ i =>
            simp only [List.getElem?_cons_succ] at hget
            obtain ⟨s2, hseq, hrem, hsne, hwit⟩ := ihPulls i rem hget
            refine ⟨s2, by simpa using hseq, hrem, hsne, ?_⟩
            intro hrne
            obtain ⟨x, hx, hxi⟩ := hwit hrne
            exact ⟨x, hx, by omega⟩
      | cons h t =>
        simp only [initFrontier, probeSource]
        have hhidx : index h = b := htag0 (h :: t) rfl h (List.mem_cons_self h t)
        refine ⟨?_, ?_, ?_⟩
        · rw [List.pairwise_cons]
          refine ⟨?_, ihPW⟩
          intro y hy
          obtain ⟨i, t2, _, hidx, _⟩ := ihItems y hy
          omega
        · intro x hx
          rcases List.mem_cons.mp hx with rfl | hx2
          · exact ⟨0, t, by simp, by omega, by simp⟩
          · obtain ⟨i, t2, hseq, hidx, hpl⟩ := ihItems x hx2
            exact ⟨i+1, t2, by simpa using hseq, by omega, by simpa using hpl⟩
        · intro i rem hget
          cases i with
          | zero =>
            simp only [List.getElem?_cons_zero, Option.some.injEq] at hget
            refine ⟨h :: t, by simp, ?_, by simp, ?_⟩
            · rw [← hget]; rfl
            · intro _
              exact ⟨h, List.mem_cons_self h _, by omega⟩
          | succ i =>
            simp only [List.getElem?_cons_succ] at hget
            obtain ⟨s2, hseq, hrem, hsne, hwit⟩ := ihPulls i rem hget
            refine ⟨s2, by simpa using hseq, hrem, hsne, ?_⟩
            intro hrne
            obtain ⟨x, hx, hxi⟩ := hwit hrne
            exact ⟨x, List.mem_cons_of_mem h hx, by omega⟩

theorem safeInv_perm {T : Type} {index : T → Nat} {items items2 : List T}
    {pulls : List (Option (List T))} (hperm : List.Perm items items2)
    (hinv : SafeInv index items pulls) : SafeInv index items2 pulls := by
  refine ⟨?_, ?_, ?_⟩
  · exact (hperm.pairwise_iff (fun hab hc => hab hc.symm)).mp hinv.distinct
  · intro x hx
    exact hinv.active x (hperm.mem_iff.mpr hx)
  · intro i rem hget hne
    obtain ⟨x, hx, hxi⟩ := hinv.ghost i rem hget hne
    exact ⟨x, hperm.mem_iff.mp hx, hxi⟩

theorem mergeInit_safeInv {T : Type} (cmp : T → T → Int) (index : T → Nat)
    (seqs : List (Option (List T))) (htag : TaggedFrom index 0 seqs) :
    SafeInv index (mergeInitState cmp index seqs).1
      (mergeInitState cmp index seqs).2 := by
  obtain ⟨hPW, hItems, hPulls⟩ := initFrontier_spec index seqs 0 htag
  have hbase : SafeInv index (initFrontier seqs).1 (initFrontier seqs).2 := by
    refine ⟨?_, ?_, ?_⟩
    · exact hPW.imp (fun hlt => by omega)
    · intro x hx
      obtain ⟨i, t, hseq, hidx, hpl⟩ := hItems x hx
      refine ⟨t, ?_, ?_⟩
      · have hie : index x = i := by omega
        rw [hie]
        exact hpl
      · intro y hy
        have := htag i (x :: t) hseq y (List.mem_cons_of_mem x hy)
        omega
    · intro i rem hget hne
      obtain ⟨s, hseq, hrem, hsne, hwit⟩ := hPulls i rem hget
      obtain ⟨x, hx, hxi⟩ := hwit hne
      exact ⟨x, hx, by omega⟩
  exact safeInv_perm (heapInit_perm (mergeLess cmp index) _).symm hbase

theorem mergeInit_orderInv {T : Type} (cmp : T → T → Int) (index : T → Nat)
    (hc : IsComparator cmp) (seqs : List (Option (List T)))
    (htag : TaggedFrom index 0 seqs) (hsort : SortedSeqs cmp seqs) :
    OrderInv cmp index (mergeInitState cmp index seqs).1
      (mergeInitState cmp index seqs).2 := by
  obtain ⟨hPW, hItems, hPulls⟩ := initFrontier_spec index seqs 0 htag
  have hmem : ∀ x, x ∈ (mergeInitState cmp index seqs).1 ↔
      x ∈ (initFrontier seqs).1 :=
    fun x => (heapInit_perm (mergeLess cmp index) _).mem_iff
  refine ⟨?_, ?_, ?_⟩
  · exact heapInit_isHeap (mergeLess_ltSpec index hc) _
  · intro i rem hget
    obtain ⟨s, hseq, hrem, hsne, _⟩ := hPulls i rem hget
    have := hsort i s hseq
    cases s with
    | nil => exact absurd rfl hsne
    | cons x t =>
      rw [List.pairwise_cons] at this
      rw [hrem]
      exact this.2
  · intro x hx rem hget y hy
    obtain ⟨i, t, hseq, hidx, hpl⟩ := hItems x ((hmem x).mp hx)
    have hie : index x = i := by omega
    have h2eq : (mergeInitState cmp index seqs).2
        = (initFrontier seqs).2 := rfl
    rw [h2eq, hie] at hget
    rw [hget] at hpl
    cases hpl
    have := hsort i (x :: rem) hseq
    rw [List.pairwise_cons] at this
    exact this.1 y hy

/-- The initial frontier together with the unproduced suffixes is exactly
the multiset of all source elements. -/
theorem initFrontier_elems {T : Type} :
    ∀ (seqs : List (Option (List T))),
      List.Perm ((initFrontier seqs).1 ++ pullsRems (initFrontier seqs).2)
        ((seqs.map (fun o => o.getD [])).flatten) := by
  intro seqs
  induction seqs with
  | nil => simp [initFrontier, pullsRems]
  | cons s rest ih =>
    cases s with
    | none =>
      simp only [initFrontier, probeSource, List.map_cons, Option.getD_none,
        List.flatten_cons, List.nil_append]
      have : pullsRems (none :: (initFrontier rest).2)
          = pullsRems (initFrontier rest).2 := by
        simp [pullsRems]
      rw [this]
      exact ih
    | some l =>
      cases l with
      | nil =>
        simp only [initFrontier, probeSource, List.map_cons, Option.getD_some,
          List.flatten_cons, List.nil_append]
        have : pullsRems (none :: (initFrontier rest).2)
            = pullsRems (initFrontier rest).2 := by
          simp [pullsRems]
        rw [this]
        exact ih
      | cons h t =>
        simp only [initFrontier, probeSource, List.map_cons, Option.getD_some,
          List.flatten_cons]
        have hpr : pullsRems (some t :: (initFrontier rest).2)
            = t ++ pullsRems (initFrontier rest).2 := by
          simp [pullsRems]
        rw [hpr]
        show List.Perm (h :: ((initFrontier rest).1
          ++ (t ++ pullsRems (initFrontier rest).2)))
          (h :: (t ++ (rest.map (fun o => o.getD [])).flatten))
        apply List.Perm.cons
        have h1 : List.Perm ((initFrontier rest).1
            ++ (t ++ pullsRems (initFrontier rest).2))
            (t ++ ((initFrontier rest).1 ++ pullsRems (initFrontier rest).2))
            := by
          rw [← List.append_assoc, ← List.append_assoc]
          exact (List.perm_append_comm).append_right _
        exact h1.trans (List.Perm.append_left t ih)

/-! ### Properties of the wrapping layer -/

theorem wrapSources_getElem? {A : Type} :
    ∀ (seqs : List (Option (List A))) (b i : Nat),
      (wrapSources b seqs)[i]? = (seqs[i]?).map (fun s => s.map (wrapSeq (b+i))) := by
  intro seqs
  induction seqs with
  | nil => intro b i; simp [wrapSources]
  | cons s rest ih =>
    intro b i
    cases i with
    | zero => simp [wrapSources]
    | succ i =>
      simp only [wrapSources, List.getElem?_cons_succ]
      rw [ih (b+1) i]
      have : b + 1 + i = b + (i+1) := by omega
      rw [this]

theorem wrapSources_tagged {A : Type} :
    ∀ (seqs : List (Option (List A))) (b : Nat),
      TaggedFrom wrappedSeqValue.index b (wrapSources b seqs) := by
  intro seqs b i s hget y hy
  rw [wrapSources_getElem?] at hget
  cases hseq : seqs[i]? with
  | none => rw [hseq] at hget; cases hget
  | some o =>
    rw [hseq] at hget
    cases o with
    | none => cases hget
    | some l =>
      simp only [Option.map] at hget
      rw [Option.some.injEq, Option.some.injEq] at hget
      cases hget
      unfold wrapSeq at hy
      rw [List.mem_map] at hy
      obtain ⟨z, _, rfl⟩ := hy
      rfl

theorem wrapSources_sorted {A : Type} (cmp : A → A → Int)
    (seqs : List (Option (List A)))
    (hsort : ∀ (i : Nat) (l : List A), seqs[i]? = some (some l) →
      l.Pairwise (fun a b => cmp a b ≤ 0)) (b : Nat) :
    SortedSeqs (wrapCompare cmp) (wrapSources b seqs) := by
  intro i s hget
  rw [wrapSources_getElem?] at hget
  cases hseq : seqs[i]? with
  | none => rw [hseq] at hget; cases hget
  | some o =>
    rw [hseq] at hget
    cases o with
    | none => cases hget
    | some l =>
      simp only [Option.map] at hget
      rw [Option.some.injEq, Option.some.injEq] at hget
      cases hget
      have := hsort i l hseq
      unfold wrapSeq
      rw [List.pairwise_map]
      exact this.imp (fun hab => hab)

theorem wrapSources_flatten {A : Type} :
    ∀ (seqs : List (Option (List A))) (b : Nat),
      ((wrapSources b seqs).map (fun o => o.getD [])).flatten.map
          (fun x => x.v)
        = (seqs.map (fun o => o.getD [])).flatten := by
  intro seqs
  induction seqs with
  | nil => intro b; simp [wrapSources]
  | cons s rest ih =>
    intro b
    cases s with
    | none =>
      simp only [wrapSources, List.map_cons, Option.map_none,
        Option.getD_none, List.flatten_cons, List.nil_append]
      exact ih (b+1)
    | some l =>
      simp only [wrapSources, List.map_cons, Option.map_some,
        Option.getD_some, List.flatten_cons, List.map_append]
      rw [ih (b+1)]
      unfold wrapSeq
      simp only [Option.map, Option.getD_some]
      rw [List.map_map]
      have hid : ((fun x : wrappedSeqValue A => x.v)
          ∘ fun v => ({ i := b, v := v } : wrappedSeqValue A)) = id := rfl
      rw [hid, List.map_id]

theorem wrapCompare_isComparator {A : Type} {cmp : A → A → Int}
    (hc : IsComparator cmp) : IsComparator (wrapCompare cmp) := by
  refine ⟨?_, ?_⟩
  · intro a b
    exact hc.flip_sign a.v b.v
  · intro a b c
    exact hc.le_trans a.v b.v c.v

/-! ### The engine: mergeState.all -/

theorem mergeStateAll_ok {T : Type} (cmp : T → T → Int) (index : T → Nat)
    (seqs : List (Option (List T))) (htag : TaggedFrom index 0 seqs) :
    ∃ out, mergeStateAll cmp index seqs = .ok (out, out.length) ∧
      List.Perm out ((seqs.map (fun o => o.getD [])).flatten) := by
  have hinv := mergeInit_safeInv cmp index seqs htag
  obtain ⟨out, fin, hrun, hperm⟩ := runAll_safe (mergeLess cmp index) index
    (stateSize (mergeInitState cmp index seqs))
    (mergeInitState cmp index seqs).1 (mergeInitState cmp index seqs).2
    (Nat.le_refl _) hinv
  refine ⟨out, ?_, ?_⟩
  · unfold mergeStateAll
    rw [show ((mergeInitState cmp index seqs).1,
        (mergeInitState cmp index seqs).2) = mergeInitState cmp index seqs
      from rfl] at hrun
    rw [hrun]
  · have h1 : List.Perm
        ((mergeInitState cmp index seqs).1
          ++ pullsRems (mergeInitState cmp index seqs).2)
        ((initFrontier seqs).1 ++ pullsRems (initFrontier seqs).2) := by
      apply List.Perm.append_right
      exact heapInit_perm (mergeLess cmp index) _
    exact hperm.trans (h1.trans (initFrontier_elems seqs))

theorem mergeStateAll_sorted {T : Type} (cmp : T → T → Int)
    (index : T → Nat) (hc : IsComparator cmp)
    (seqs : List (Option (List T))) (htag : TaggedFrom index 0 seqs)
    (hsort : SortedSeqs cmp seqs) :
    ∀ out c, mergeStateAll cmp index seqs = .ok (out, c) →
      List.Pairwise (fun a b => mergeLess cmp index b a = false) out := by
  intro out c hok
  have hinv := mergeInit_safeInv cmp index seqs htag
  have hord := mergeInit_orderInv cmp index hc seqs htag hsort
  obtain ⟨out2, fin, hrun, _⟩ := runAll_safe (mergeLess cmp index) index
    (stateSize (mergeInitState cmp index seqs))
    (mergeInitState cmp index seqs).1 (mergeInitState cmp index seqs).2
    (Nat.le_refl _) hinv
  have hps := runAll_sorted cmp index hc
    (stateSize (mergeInitState cmp index seqs))
    (mergeInitState cmp index seqs).1 (mergeInitState cmp index seqs).2
    (Nat.le_refl _) hinv hord out2 fin out2.length hrun
  unfold mergeStateAll at hok
  rw [show ((mergeInitState cmp index seqs).1,
      (mergeInitState cmp index seqs).2) = mergeInitState cmp index seqs
    from rfl] at hrun
  rw [hrun] at hok
  cases hok
  exact hps

/-! ### The early-stopping consumer -/

theorem runStop_empty {T : Type} (lt : T → T → Bool) (index : T → Nat)
    (b : Nat) (st : List T × List (Option (List T)))
    (h : heapPop lt st.1 = none) :
    runStop lt index b st = .ok ([], st, 0) := by
  rw [runStop]
  split
  next => rfl
  next v rest heq => rw [h] at heq; cases heq

theorem runStop_zero {T : Type} (lt : T → T → Bool) (index : T → Nat)
    (st : List T × List (Option (List T))) (v : T) (rest : List T)
    (h : heapPop lt st.1 = some (v, rest)) :
    runStop lt index 0 st = .ok ([], (rest, st.2), 0) := by
  rw [runStop]
  split
  next heq => rw [h] at heq; cases heq
  next v2 rest2 heq =>
    rw [h] at heq
    cases heq
    rfl

theorem runStop_one {T : Type} (lt : T → T → Bool) (index : T → Nat)
    (st : List T × List (Option (List T))) (v : T) (rest : List T)
    (h : heapPop lt st.1 = some (v, rest)) :
    runStop lt index 1 st = .ok ([v], (rest, st.2), 0) := by
  rw [runStop]
  split
  next heq => rw [h] at heq; cases heq
  next v2 rest2 heq =>
    rw [h] at heq
    cases heq
    rfl

theorem runStop_step {T : Type} (lt : T → T → Bool) (index : T → Nat)
    (b : Nat) (st st2 : List T × List (Option (List T))) (v : T)
    (rest : List T) (hpop : heapPop lt st.1 = some (v, rest))
    (hr : refill lt index v rest st.2 = .ok st2) :
    runStop lt index (b+2) st =
      match runStop lt index (b+1) st2 with
      | .error e => .error e
      | .ok (out, fin, c) => .ok (v :: out, fin, c + 1) := by
  rw [runStop]
  split
  next heq => rw [hpop] at heq; cases heq
  next v2 rest2 heq =>
    rw [hpop] at heq
    cases heq
    split
    next hb => omega
    next hb => omega
    next c hb =>
      have hcb : c = b := by omega
      subst hcb
      split
      next e heq2 => rw [hr] at heq2; cases heq2
      next st3 heq2 =>
        rw [hr] at heq2
        cases heq2
        rfl

/-- Stopping the consumer after b elements yields exactly the first b
elements of the full merge, with only the pulls needed for them: the loop
performs min (b-1) N pull calls, where N is the length of the full merge
output. -/
theorem runStop_take {T : Type} (lt : T → T → Bool) (index : T → Nat) :
    ∀ (N : Nat) (items : List T) (pulls : List (Option (List T))) (b : Nat),
      stateSize (items, pulls) ≤ N → SafeInv index items pulls →
      ∀ out fin, runAll lt index (items, pulls) = .ok (out, fin, out.length) →
      ∃ fin2, runStop lt index b (items, pulls)
        = .ok (out.take b, fin2, min (b-1) out.length) := by
  intro N
  induction N with
  | zero =>
    intro items pulls b hsz hinv out fin hrun
    have hni : items = [] := by
      simp only [stateSize] at hsz
      cases items with
      | nil => rfl
      | cons a c => simp at hsz
    subst hni
    rw [runAll_eq_terminal lt index _ (mergeStep_empty lt index pulls)]
      at hrun
    cases hrun
    refine ⟨([] , pulls), ?_⟩
    rw [runStop_empty lt index b _ (heapPop_nil lt)]
    simp
  | succ N ih =>
    intro items pulls b hsz hinv out fin hrun
    by_cases hne : items = []
    · subst hne
      rw [runAll_eq_terminal lt index _ (mergeStep_empty lt index pulls)]
        at hrun
      cases hrun
      refine ⟨([] , pulls), ?_⟩
      rw [runStop_empty lt index b _ (heapPop_nil lt)]
      simp
    · obtain ⟨v, rest, rem, hpop, hperm, hrem, htag, hcase⟩ :=
        mergeStep_spec lt index items pulls hinv hne
      have hstep : ∃ st2, mergeStep lt index (items, pulls)
          = .ok (some (v, st2)) ∧
          refill lt index v rest pulls = .ok st2 ∧
          SafeInv index st2.1 st2.2 := by
        rcases hcase with ⟨hrnil, hms⟩ | ⟨h, t, hrcons, hms⟩
        · subst hrnil
          refine ⟨(rest, pulls), hms, ?_, safeInv_step_nil hinv hperm hrem⟩
          unfold refill
          rw [hrem]
        · subst hrcons
          refine ⟨(heapPush lt rest h, pulls.set (index v) (some t)),
            hms, ?_, @safeInv_step_cons T index lt items rest v h t pulls
              hinv hperm hrem htag⟩
          unfold refill
          rw [hrem]
      obtain ⟨st2, hms, hr, hinv2⟩ := hstep
      have hsz2 : stateSize st2 ≤ N := by
        have := mergeStep_size lt index (items, pulls) v st2 hms
        omega
      obtain ⟨out2, fin2, hrun2, _⟩ := runAll_safe lt index N st2.1 st2.2
        hsz2 hinv2
      rw [show (st2.1, st2.2) = st2 from rfl] at hrun2
      rw [runAll_eq_step lt index _ _ v hms, hrun2] at hrun
      cases hrun
      match b with
      | 0 =>
        refine ⟨(rest, pulls), ?_⟩
        rw [runStop_zero lt index _ v rest hpop]
        simp
      | 1 =>
        refine ⟨(rest, pulls), ?_⟩
        rw [runStop_one lt index _ v rest hpop]
        simp
      | b+2 =>
        obtain ⟨fin3, hrs⟩ := ih st2.1 st2.2 (b+1) hsz2 hinv2 out2 _
          (by rw [show (st2.1, st2.2) = st2 from rfl]; exact hrun2)
        rw [show (st2.1, st2.2) = st2 from rfl] at hrs
        refine ⟨fin3, ?_⟩
        rw [runStop_step lt index b _ st2 v rest hpop hr, hrs]
        show Except.ok (v :: out2.take (b+1), fin3,
            min (b+1-1) out2.length + 1) = _
        have h1 : v :: out2.take (b+1) = (v :: out2).take (b+2) := by
          simp
        have h2 : min (b+1-1) out2.length + 1
            = min (b+2-1) (v :: out2).length := by
          simp only [List.length_cons]
          omega
        rw [h1, h2]

/-! ### The single-source run -/

theorem siftDown_n_zero {T : Type} (lt : T → T → Bool) (l : List T)
    (i : Nat) : siftDown lt l i 0 = l := by
  rw [siftDown]
  simp

theorem siftUp_zero {T : Type} (lt : T → T → Bool) (l : List T) :
    siftUp lt l 0 = l := by
  rw [siftUp]
  simp

theorem heapPop_singleton {T : Type} (lt : T → T → Bool) (x : T) :
    heapPop lt [x] = some (x, []) := by
  have h1 : swapItems [x] 0 0 = [x] := by
    unfold swapItems
    simp
  unfold heapPop
  show Option.map (fun v => (v, (siftDown lt (swapItems [x] 0 0) 0 0).dropLast))
    (siftDown lt (swapItems [x] 0 0) 0 0).getLast? = some (x, [])
  rw [h1, siftDown_n_zero]
  rfl

theorem heapPush_empty {T : Type} (lt : T → T → Bool) (x : T) :
    heapPush lt [] x = [x] := by
  unfold heapPush
  simp only [List.nil_append, List.length_cons, List.length_nil]
  exact siftUp_zero lt [x]

theorem runAll_single {T : Type} (lt : T → T → Bool) (index : T → Nat) :
    ∀ (rem : List T) (x : T), index x = 0 → (∀ y ∈ rem, index y = 0) →
      runAll lt index ([x], [some rem])
        = .ok (x :: rem, ([], [some []]), rem.length + 1) := by
  intro rem
  induction rem with
  | nil =>
    intro x hx _
    have hms : mergeStep lt index ([x], [some []])
        = .ok (some (x, ([], [some []]))) := by
      unfold mergeStep
      rw [heapPop_singleton]
      show (match refill lt index x [] [some []] with
        | Except.error e => Except.error e
        | Except.ok st2 => Except.ok (some (x, st2))) = _
      unfold refill
      rw [hx]
      rfl
    rw [runAll_eq_step lt index _ _ x hms]
    rw [runAll_eq_terminal lt index _ (mergeStep_empty lt index [some []])]
    rfl
  | cons h t ih =>
    intro x hx htag
    have hms : mergeStep lt index ([x], [some (h :: t)])
        = .ok (some (x, ([h], [some t]))) := by
      unfold mergeStep
      rw [heapPop_singleton]
      show (match refill lt index x [] [some (h :: t)] with
        | Except.error e => Except.error e
        | Except.ok st2 => Except.ok (some (x, st2))) = _
      unfold refill
      rw [hx]
      show Except.ok (some (x, (heapPush lt [] h, [some t]))) = _
      rw [heapPush_empty]
    rw [runAll_eq_step lt index _ _ x hms]
    rw [ih h (htag h (List.mem_cons_self h t))
      (fun y hy => htag y (List.mem_cons_of_mem h hy))]
    rfl

/-! ### Per-source accounting of the merge loop -/

/-- Number of elements of l tagged with source index i. -/
def countIdx {T : Type} (index : T → Nat) (l : List T) (i : Nat) : Nat :=
  l.countP (fun x => index x = i)

/-- Number of not-yet-produced elements of source i. -/
def remLenAt {T : Type} (pulls : List (Option (List T))) (i : Nat) : Nat :=
  match pulls[i]? with
  | some (some r) => r.length
  | _ => 0

theorem countIdx_perm {T : Type} (index : T → Nat) {l l2 : List T}
    (h : List.Perm l l2) (i : Nat) :
    countIdx index l i = countIdx index l2 i :=
  h.countP_eq _

theorem countIdx_cons {T : Type} (index : T → Nat) (x : T) (l : List T)
    (i : Nat) :
    countIdx index (x :: l) i
      = countIdx index l i + (if index x = i then 1 else 0) := by
  unfold countIdx
  rw [List.countP_cons]
  by_cases h : index x = i <;> simp [h]

theorem countIdx_append {T : Type} (index : T → Nat) (l l2 : List T)
    (i : Nat) :
    countIdx index (l ++ l2) i = countIdx index l i + countIdx index l2 i :=
  List.countP_append _ _ _

theorem countIdx_le_one {T : Type} (index : T → Nat) :
    ∀ (l : List T), l.Pairwise (fun a b => index a ≠ index b) →
      ∀ i, countIdx index l i ≤ 1 := by
  intro l
  induction l with
  | nil => intro _ i; simp [countIdx]
  | cons x xs ih =>
    intro hpw i
    rw [List.pairwise_cons] at hpw
    rw [countIdx_cons]
    by_cases h : index x = i
    · have hz : countIdx index xs i = 0 := by
        unfold countIdx
        rw [List.countP_eq_zero]
        intro y hy
        simp only [decide_eq_true_eq]
        intro hc
        exact hpw.1 y hy (by omega)
      rw [if_pos h]
      omega
    · have := ih hpw.2 i
      rw [if_neg h]
      omega

theorem countIdx_pos_iff {T : Type} (index : T → Nat) (l : List T)
    (i : Nat) : 0 < countIdx index l i ↔ ∃ x ∈ l, index x = i := by
  unfold countIdx
  rw [List.countP_pos]
  simp

theorem remLenAt_set_self {T : Type} (pulls : List (Option (List T)))
    (j : Nat) (x : Option (List T)) (hj : j < pulls.length) :
    remLenAt (pulls.set j x) j = (x.getD []).length := by
  unfold remLenAt
  rw [List.getElem?_set_eq_of_lt _ hj]
  cases x with
  | none => rfl
  | some r => rfl

theorem remLenAt_set_ne {T : Type} (pulls : List (Option (List T)))
    (j i : Nat) (x : Option (List T)) (hij : i ≠ j) :
    remLenAt (pulls.set j x) i = remLenAt pulls i := by
  unfold remLenAt
  rw [List.getElem?_set_ne (fun hc => hij hc.symm)]

/-- Everything the merge loop maintains, packaged relative to the fixed
per-source element totals orig. -/
structure LoopInv {T : Type} (cmp : T → T → Int) (index : T → Nat)
    (orig : Nat → Nat) (L : Nat) (items : List T)
    (pulls : List (Option (List T))) (out : List T) : Prop where
  safe : SafeInv index items pulls
  order : OrderInv cmp index items pulls
  conserve : ∀ i, countIdx index items i + countIdx index out i
    + remLenAt pulls i = orig i
  plen : pulls.length = L

theorem loopInv_step {T : Type} {cmp : T → T → Int} {index : T → Nat}
    {orig : Nat → Nat} {L : Nat} (hc : IsComparator cmp)
    {items : List T} {pulls : List (Option (List T))} {out : List T}
    {v : T} {st2 : List T × List (Option (List T))}
    (hinv : LoopInv cmp index orig L items pulls out)
    (hms : mergeStep (mergeLess cmp index) index (items, pulls)
      = .ok (some (v, st2))) :
    LoopInv cmp index orig L st2.1 st2.2 (out ++ [v]) := by
  have hne : items ≠ [] := by
    intro hcc
    subst hcc
    rw [mergeStep_empty] at hms
    cases hms
  obtain ⟨v2, rest, rem, hpop, hperm, hrem, htag, hcase⟩ :=
    mergeStep_spec (mergeLess cmp index) index items pulls hinv.safe hne
  have hcnt : ∀ i, countIdx index items i
      = countIdx index rest i + (if index v2 = i then 1 else 0) := by
    intro i
    rw [← countIdx_perm index hperm i, countIdx_cons]
  have hout : ∀ i, countIdx index (out ++ [v2]) i
      = countIdx index out i + (if index v2 = i then 1 else 0) := by
    intro i
    rw [countIdx_append]
    simp [countIdx, List.countP_cons]
  have hivl : index v2 < pulls.length := getElem?_some_lt hrem
  rcases hcase with ⟨hrnil, hms2⟩ | ⟨h, t, hrcons, hms2⟩
  · subst hrnil
    rw [hms2] at hms
    cases hms
    show LoopInv cmp index orig L rest pulls (out ++ [v])
    refine ⟨safeInv_step_nil hinv.safe hperm hrem,
      orderInv_step_nil hc hinv.order hpop hne hperm, ?_, hinv.plen⟩
    intro i
    have hc1 := hinv.conserve i
    rw [hcnt i] at hc1
    rw [hout i]
    by_cases hvi : index v = i
    · rw [if_pos hvi] at hc1 ⊢
      omega
    · rw [if_neg hvi] at hc1 ⊢
      omega
  · subst hrcons
    rw [hms2] at hms
    cases hms
    show LoopInv cmp index orig L (heapPush (mergeLess cmp index) rest h)
      (pulls.set (index v) (some t)) (out ++ [v])
    refine ⟨@safeInv_step_cons T index (mergeLess cmp index)
        items rest v h t pulls hinv.safe hperm hrem htag,
      orderInv_step_cons hc hinv.safe hinv.order hpop hne hperm hrem,
      ?_, by simpa using hinv.plen⟩
    intro i
    have hc1 := hinv.conserve i
    rw [hcnt i] at hc1
    have hpp : countIdx index (heapPush (mergeLess cmp index) rest h) i
        = countIdx index rest i + (if index h = i then 1 else 0) := by
      rw [countIdx_perm index (heapPush_perm (mergeLess cmp index) rest h) i,
        countIdx_cons]
    have hhv : index h = index v := htag h (List.mem_cons_self h t)
    rw [hout i, hpp, hhv]
    by_cases hvi : index v = i
    · rw [if_pos hvi] at hc1 ⊢
      subst hvi
      rw [remLenAt_set_self pulls _ _ hivl]
      have hrl : remLenAt pulls (index v) = t.length + 1 := by
        unfold remLenAt
        rw [hrem]
        rfl
      rw [hrl] at hc1
      simp only [Option.getD_some]
      omega
    · rw [if_neg hvi] at hc1 ⊢
      rw [remLenAt_set_ne pulls _ i _ (fun hcc => hvi hcc.symm)]
      omega

theorem iterMerge_loopInv {T : Type} {cmp : T → T → Int} {index : T → Nat}
    {orig : Nat → Nat} {L : Nat} (hc : IsComparator cmp) :
    ∀ (n : Nat) (items : List T) (pulls : List (Option (List T)))
      (out : List T)
      (st2 : List T × List (Option (List T)) × List T),
      LoopInv cmp index orig L items pulls out →
      iterMerge (mergeLess cmp index) index n (items, pulls, out)
        = .ok st2 →
      LoopInv cmp index orig L st2.1 st2.2.1 st2.2.2 := by
  intro n
  induction n with
  | zero =>
    intro items pulls out st2 hinv hit
    cases hit
    exact hinv
  | succ n ih =>
    intro items pulls out st2 hinv hit
    unfold iterMerge at hit
    split at hit
    next heq => cases hit
    next heq =>
      cases hit
      exact hinv
    next v items2 pulls2 heq =>
      exact ih items2 pulls2 (out ++ [v]) st2 (loopInv_step hc hinv heq) hit

theorem mergeStep_safeInv {T : Type} (lt : T → T → Bool) (index : T → Nat)
    {items : List T} {pulls : List (Option (List T))} {v : T}
    {st2 : List T × List (Option (List T))}
    (hinv : SafeInv index items pulls)
    (hms : mergeStep lt index (items, pulls) = .ok (some (v, st2))) :
    SafeInv index st2.1 st2.2 := by
  have hne : items ≠ [] := by
    intro hcc
    subst hcc
    rw [mergeStep_empty] at hms
    cases hms
  obtain ⟨v2, rest, rem, hpop, hperm, hrem, htag, hcase⟩ :=
    mergeStep_spec lt index items pulls hinv hne
  rcases hcase with ⟨hrnil, hms2⟩ | ⟨h, t, hrcons, hms2⟩
  · subst hrnil
    rw [hms2] at hms
    cases hms
    exact safeInv_step_nil hinv hperm hrem
  · subst hrcons
    rw [hms2] at hms
    cases hms
    exact @safeInv_step_cons T index lt items rest v h t pulls
      hinv hperm hrem htag

theorem iterMerge_safeInv {T : Type} (lt : T → T → Bool)
    (index : T → Nat) :
    ∀ (n : Nat) (items : List T) (pulls : List (Option (List T)))
      (out : List T) (st2 : List T × List (Option (List T)) × List T),
      SafeInv index items pulls →
      iterMerge lt index n (items, pulls, out) = .ok st2 →
      SafeInv index st2.1 st2.2.1 := by
  intro n
  induction n with
  | zero =>
    intro items pulls out st2 hinv hit
    cases hit
    exact hinv
  | succ n ih =>
    intro items pulls out st2 hinv hit
    unfold iterMerge at hit
    split at hit
    next heq => cases hit
    next heq =>
      cases hit
      exact hinv
    next v items2 pulls2 heq =>
      exact ih items2 pulls2 (out ++ [v]) st2
        (mergeStep_safeInv lt index hinv heq) hit

theorem isHeap_head_min {T : Type} {lt : T → T → Bool} (hs : LtSpec lt)
    (l : List T) (hH : IsHeap lt l) (hne : l ≠ []) :
    ∀ x ∈ l, lt x (l.head hne) = false := by
  have h0 : 0 < l.length := List.length_pos.mpr hne
  intro x hx
  obtain ⟨k, hk, hkx⟩ := List.mem_iff_getElem.mp hx
  have := heapFrom_zero_min hs l l.length (Nat.le_refl _) hH k hk
  rw [lessAt_get lt l k 0 hk h0] at this
  rw [← hkx]
  have hhead : l.head hne = l.get ⟨0, h0⟩ := by
    cases l with
    | nil => exact absurd rfl hne
    | cons a as => rfl
  rw [hhead]
  exact this

/-! ### Simulation of the engine along a tag-preserving bijection -/

section MapSim

variable {T U : Type} (f : T → U) (ltT : T → T → Bool) (ltU : U → U → Bool)

theorem lessAt_map (hlt : ∀ a b, ltU (f a) (f b) = ltT a b)
    (l : List T) (i j : Nat) :
    lessAt ltU (l.map f) i j = lessAt ltT l i j := by
  unfold lessAt
  rw [List.getElem?_map, List.getElem?_map]
  cases l[i]? <;> cases l[j]? <;> simp [hlt]

theorem swapItems_map (l : List T) (i j : Nat) :
    swapItems (l.map f) i j = (swapItems l i j).map f := by
  unfold swapItems
  rw [List.getElem?_map, List.getElem?_map]
  cases l[i]? <;> cases l[j]? <;> simp [List.map_set]

theorem siftDown_map (hlt : ∀ a b, ltU (f a) (f b) = ltT a b) :
    ∀ (l : List T) (i n : Nat),
      siftDown ltU (l.map f) i n = (siftDown ltT l i n).map f := by
  intro l i n
  induction l, i, n using siftDown.induct ltT with
  | case1 l i n j1 h j hlt2 ih =>
    simp only [j1, j] at *
    simp only [dite_eq_ite] at hlt2 ih
    rw [siftDown, siftDown]
    simp only [dite_eq_ite, lessAt_map f ltT ltU hlt, swapItems_map f]
    rw [if_pos h, if_pos h, if_pos hlt2, if_pos hlt2]
    exact ih
  | case2 l i n j1 h j hlt2 =>
    simp only [j1, j] at *
    simp only [dite_eq_ite] at hlt2
    rw [siftDown, siftDown]
    simp only [dite_eq_ite, lessAt_map f ltT ltU hlt]
    rw [if_pos h, if_pos h, if_neg hlt2, if_neg hlt2]
  | case3 l i n j1 h =>
    simp only [j1] at *
    rw [siftDown, siftDown]
    simp only [dite_eq_ite, lessAt_map f ltT ltU hlt]
    rw [if_neg h, if_neg h]

theorem siftUp_map (hlt : ∀ a b, ltU (f a) (f b) = ltT a b) :
    ∀ (l : List T) (j : Nat),
      siftUp ltU (l.map f) j = (siftUp ltT l j).map f := by
  intro l j
  induction l, j using siftUp.induct ltT with
  | case1 l j i h =>
    simp only [i] at h
    conv_lhs => rw [siftUp]
    conv_rhs => rw [siftUp]
    simp only [dif_pos h]
  | case2 l j i h hlt2 ih =>
    simp only [i] at *
    conv_lhs => rw [siftUp]
    conv_rhs => rw [siftUp]
    simp only [dif_neg h, lessAt_map f ltT ltU hlt, swapItems_map f]
    rw [if_pos hlt2, if_pos hlt2]
    exact ih
  | case3 l j i h hlt2 =>
    simp only [i] at *
    conv_lhs => rw [siftUp]
    conv_rhs => rw [siftUp]
    simp only [dif_neg h, lessAt_map f ltT ltU hlt]
    rw [if_neg hlt2, if_neg hlt2]

theorem heapInitLoop_map (hlt : ∀ a b, ltU (f a) (f b) = ltT a b) :
    ∀ (k : Nat) (l : List T) (n : Nat),
      heapInitLoop ltU (l.map f) k n = (heapInitLoop ltT l k n).map f := by
  intro k
  induction k with
  | zero => intro l n; rfl
  | succ k ih =>
    intro l n
    show heapInitLoop ltU (siftDown ltU (l.map f) k n) k n = _
    rw [siftDown_map f ltT ltU hlt]
    exact ih (siftDown ltT l k n) n

theorem heapInit_map (hlt : ∀ a b, ltU (f a) (f b) = ltT a b)
    (l : List T) : heapInit ltU (l.map f) = (heapInit ltT l).map f := by
  unfold heapInit
  rw [List.length_map]
  exact heapInitLoop_map f ltT ltU hlt (l.length / 2) l l.length

theorem heapPush_map (hlt : ∀ a b, ltU (f a) (f b) = ltT a b)
    (l : List T) (x : T) :
    heapPush ltU (l.map f) (f x) = (heapPush ltT l x).map f := by
  unfold heapPush
  have hm : l.map f ++ [f x] = (l ++ [x]).map f := by simp
  rw [hm, siftUp_map f ltT ltU hlt]
  simp

theorem heapPop_map (hlt : ∀ a b, ltU (f a) (f b) = ltT a b)
    (l : List T) :
    heapPop ltU (l.map f)
      = (heapPop ltT l).map (fun p => (f p.1, p.2.map f)) := by
  cases l with
  | nil => rfl
  | cons a as =>
    show (siftDown ltU (swapItems ((a :: as).map f) 0
        (((a :: as).map f).length - 1)) 0
        (((a :: as).map f).length - 1)).getLast?.map _ = _
    rw [List.length_map, swapItems_map f, siftDown_map f ltT ltU hlt]
    show _ = ((siftDown ltT (swapItems (a :: as) 0 ((a :: as).length - 1)) 0
        ((a :: as).length - 1)).getLast?.map
        (fun v => (v, (siftDown ltT (swapItems (a :: as) 0
          ((a :: as).length - 1)) 0 ((a :: as).length - 1)).dropLast))).map
        (fun p => (f p.1, p.2.map f))
    set l2 := siftDown ltT (swapItems (a :: as) 0 ((a :: as).length - 1)) 0
      ((a :: as).length - 1)
    rw [List.getLast?_map]
    cases l2.getLast? with
    | none => rfl
    | some v =>
      simp [List.map_dropLast]

end MapSim

/-! ### Simulation of the full engine along a tag-preserving bijection -/

section MapSimEngine

variable {T U : Type} (f : T → U) (ltT : T → T → Bool) (ltU : U → U → Bool)
variable (indexT : T → Nat) (indexU : U → Nat)

theorem probeSource_map (s : Option (List T)) :
    probeSource (s.map (List.map f))
      = ((probeSource s).1.map f, (probeSource s).2.map (List.map f)) := by
  cases s with
  | none => rfl
  | some l =>
    cases l with
    | nil => rfl
    | cons h t => rfl

theorem initFrontier_map :
    ∀ (seqs : List (Option (List T))),
      initFrontier (seqs.map (Option.map (List.map f)))
        = ((initFrontier seqs).1.map f,
           (initFrontier seqs).2.map (Option.map (List.map f))) := by
  intro seqs
  induction seqs with
  | nil => rfl
  | cons s rest ih =>
    show initFrontier (s.map (List.map f) :: rest.map (Option.map (List.map f))) = _
    rw [initFrontier, initFrontier]
    simp only [probeSource_map f s, ih]
    cases hp : (probeSource s).1 with
    | none => rfl
    | some v => rfl

theorem refill_map (hidx : ∀ x, indexU (f x) = indexT x)
    (hlt : ∀ a b, ltU (f a) (f b) = ltT a b)
    (v : T) (rest : List T) (pulls : List (Option (List T))) :
    refill ltU indexU (f v) (rest.map f) (pulls.map (Option.map (List.map f)))
      = (refill ltT indexT v rest pulls).map
          (fun st => (st.1.map f, st.2.map (Option.map (List.map f)))) := by
  unfold refill
  rw [hidx, List.getElem?_map]
  cases hp : pulls[indexT v]? with
  | none => rfl
  | some o =>
    cases o with
    | none => rfl
    | some rem =>
      cases rem with
      | nil => rfl
      | cons h t =>
        show Except.ok (heapPush ltU (rest.map f) (f h),
            (pulls.map (Option.map (List.map f))).set (indexT v)
              (some (t.map f))) = _
        rw [heapPush_map f ltT ltU hlt]
        show _ = Except.ok ((heapPush ltT rest h).map f,
            (pulls.set (indexT v) (some t)).map (Option.map (List.map f)))
        rw [List.map_set]
        rfl

theorem mergeStep_map (hidx : ∀ x, indexU (f x) = indexT x)
    (hlt : ∀ a b, ltU (f a) (f b) = ltT a b)
    (st : List T × List (Option (List T))) :
    mergeStep ltU indexU (st.1.map f, st.2.map (Option.map (List.map f)))
      = (mergeStep ltT indexT st).map
          (Option.map (fun p =>
            (f p.1, (p.2.1.map f, p.2.2.map (Option.map (List.map f)))))) := by
  unfold mergeStep
  rw [heapPop_map f ltT ltU hlt]
  cases hp : heapPop ltT st.1 with
  | none => rfl
  | some p =>
    obtain ⟨v, rest⟩ := p
    show (match refill ltU indexU (f v) (rest.map f)
        (st.2.map (Option.map (List.map f))) with
      | Except.error e => Except.error e
      | Except.ok st2 => Except.ok (some (f v, st2))) = _
    rw [refill_map f ltT ltU indexT indexU hidx hlt]
    show _ = Except.map _ (match refill ltT indexT v rest st.2 with
      | Except.error e => Except.error e
      | Except.ok st2 => Except.ok (some (v, st2)))
    cases refill ltT indexT v rest st.2 with
    | error e => rfl
    | ok st2 => rfl

theorem runAll_eq_error {V : Type} (lt : V → V → Bool) (index : V → Nat)
    (st : List V × List (Option (List V))) (e : String)
    (h : mergeStep lt index st = .error e) :
    runAll lt index st = .error e := by
  rw [runAll]
  split
  next heq => rw [h] at heq; cases heq; rfl
  next heq => rw [h] at heq; cases heq
  next v st2 heq => rw [h] at heq; cases heq

theorem runAll_map (hidx : ∀ x, indexU (f x) = indexT x)
    (hlt : ∀ a b, ltU (f a) (f b) = ltT a b) :
    ∀ (N : Nat) (st : List T × List (Option (List T))), stateSize st ≤ N →
      runAll ltU indexU (st.1.map f, st.2.map (Option.map (List.map f)))
        = (runAll ltT indexT st).map
            (fun r => (r.1.map f,
              (r.2.1.1.map f, r.2.1.2.map (Option.map (List.map f))),
              r.2.2)) := by
  intro N
  induction N with
  | zero =>
    intro st hsz
    cases hstep : mergeStep ltT indexT st with
    | error e =>
      rw [runAll_eq_error ltT indexT st e hstep]
      rw [runAll_eq_error ltU indexU _ e]
      · rfl
      · rw [mergeStep_map f ltT ltU indexT indexU hidx hlt st, hstep]; rfl
    | ok o =>
      cases o with
      | none =>
        rw [runAll_eq_terminal ltT indexT st hstep]
        rw [runAll_eq_terminal ltU indexU _]
        · rfl
        · rw [mergeStep_map f ltT ltU indexT indexU hidx hlt st, hstep]; rfl
      | some p =>
        obtain ⟨v, st2⟩ := p
        have := mergeStep_size ltT indexT st v st2 hstep
        omega
  | succ N ih =>
    intro st hsz
    cases hstep : mergeStep ltT indexT st with
    | error e =>
      rw [runAll_eq_error ltT indexT st e hstep]
      rw [runAll_eq_error ltU indexU _ e]
      · rfl
      · rw [mergeStep_map f ltT ltU indexT indexU hidx hlt st, hstep]; rfl
    | ok o =>
      cases o with
      | none =>
        rw [runAll_eq_terminal ltT indexT st hstep]
        rw [runAll_eq_terminal ltU indexU _]
        · rfl
        · rw [mergeStep_map f ltT ltU indexT indexU hidx hlt st, hstep]; rfl
      | some p =>
        obtain ⟨v, st2⟩ := p
        have hlt2 := mergeStep_size ltT indexT st v st2 hstep
        have hstepU : mergeStep ltU indexU
            (st.1.map f, st.2.map (Option.map (List.map f)))
            = .ok (some (f v,
              (st2.1.map f, st2.2.map (Option.map (List.map f))))) := by
          rw [mergeStep_map f ltT ltU indexT indexU hidx hlt st, hstep]; rfl
        rw [runAll_eq_step ltT indexT st st2 v hstep]
        rw [runAll_eq_step ltU indexU _
          (st2.1.map f, st2.2.map (Option.map (List.map f))) (f v) hstepU]
        rw [ih st2 (by omega)]
        cases runAll ltT indexT st2 with
        | error e => rfl
        | ok r => rfl

theorem mergeLess_map {cmpT : T → T → Int} {cmpU : U → U → Int}
    (hidx : ∀ x, indexU (f x) = indexT x)
    (hcmp : ∀ a b, cmpU (f a) (f b) = cmpT a b) (a b : T) :
    mergeLess cmpU indexU (f a) (f b) = mergeLess cmpT indexT a b := by
  unfold mergeLess
  rw [hcmp, hidx, hidx]

theorem mergeInitState_map {cmpT : T → T → Int} {cmpU : U → U → Int}
    (hidx : ∀ x, indexU (f x) = indexT x)
    (hcmp : ∀ a b, cmpU (f a) (f b) = cmpT a b)
    (seqs : List (Option (List T))) :
    mergeInitState cmpU indexU (seqs.map (Option.map (List.map f)))
      = ((mergeInitState cmpT indexT seqs).1.map f,
         (mergeInitState cmpT indexT seqs).2.map (Option.map (List.map f))) := by
  unfold mergeInitState
  rw [initFrontier_map f seqs]
  show (heapInit (mergeLess cmpU indexU) ((initFrontier seqs).1.map f), _) = _
  rw [heapInit_map f (mergeLess cmpT indexT) (mergeLess cmpU indexU)
    (mergeLess_map f indexT indexU hidx hcmp) (initFrontier seqs).1]

theorem mergeStateAll_map {cmpT : T → T → Int} {cmpU : U → U → Int}
    (hidx : ∀ x, indexU (f x) = indexT x)
    (hcmp : ∀ a b, cmpU (f a) (f b) = cmpT a b)
    (seqs : List (Option (List T))) :
    mergeStateAll cmpU indexU (seqs.map (Option.map (List.map f)))
      = (mergeStateAll cmpT indexT seqs).map
          (fun p => (p.1.map f, p.2)) := by
  unfold mergeStateAll
  rw [mergeInitState_map f indexT indexU hidx hcmp seqs]
  rw [runAll_map f (mergeLess cmpT indexT) (mergeLess cmpU indexU)
    indexT indexU hidx (mergeLess_map f indexT indexU hidx hcmp)
    (stateSize (mergeInitState cmpT indexT seqs))
    (mergeInitState cmpT indexT seqs) (Nat.le_refl _)]
  cases runAll (mergeLess cmpT indexT) indexT (mergeInitState cmpT indexT seqs) with
  | error e => rfl
  | ok r => rfl

end MapSimEngine

/-! ### Merge2 as Merge over pairs -/

/-- The packing bijection between wrapped key/value elements and wrapped
elements over pairs: same tag, components collected into a tuple. -/
def pack {A B : Type} (x : wrappedSeq2Value A B) : wrappedSeqValue (A × B) :=
  ⟨x.i, (x.v1, x.v2)⟩

theorem wrapSeq2_pack {A B : Type} (i : Nat) (seq : List (A × B)) :
    (wrapSeq2 i seq).map pack = wrapSeq i seq := by
  unfold wrapSeq wrapSeq2 pack
  rw [List.map_map]
  rfl

theorem wrapSources2_pack {A B : Type} :
    ∀ (i : Nat) (seqs : List (Option (List (A × B)))),
      (wrapSources2 i seqs).map (Option.map (List.map pack))
        = wrapSources i seqs := by
  intro i seqs
  induction seqs generalizing i with
  | nil => rfl
  | cons s rest ih =>
    show Option.map (List.map pack) (s.map (wrapSeq2 i))
        :: (wrapSources2 (i+1) rest).map (Option.map (List.map pack))
      = s.map (wrapSeq i) :: wrapSources (i+1) rest
    rw [ih]
    congr 1
    cases s with
    | none => rfl
    | some l =>
      show some ((wrapSeq2 i l).map pack) = some (wrapSeq i l)
      rw [wrapSeq2_pack]

theorem mergeSeq2_eq_mergeSeq {A B : Type} (c : A → B → A → B → Int)
    (seqs : List (Option (List (wrappedSeq2Value A B)))) :
    mergeSeq (wrapCompare (fun p q : A × B => c p.1 p.2 q.1 q.2))
        (seqs.map (Option.map (List.map pack)))
      = mergeSeq2 (wrapCompare2 c) seqs := by
  unfold mergeSeq mergeSeq2
  rw [mergeStateAll_map pack wrappedSeq2Value.index wrappedSeqValue.index
    (fun x => rfl)
    (show ∀ a b, wrapCompare (fun p q : A × B => c p.1 p.2 q.1 q.2)
        (pack a) (pack b) = wrapCompare2 c a b from fun a b => rfl) seqs]
  cases mergeStateAll (wrapCompare2 c) wrappedSeq2Value.index seqs with
  | error e => rfl
  | ok p =>
    show Except.ok ((p.1.map pack).map (fun v => v.v))
      = Except.ok (p.1.map (fun v => (v.v1, v.v2)))
    rw [List.map_map]
    rfl

theorem Merge2_eq_Merge {A B : Type} (c : A → B → A → B → Int)
    (seqs : List (Option (List (A × B)))) :
    Merge2 (some c) seqs
      = Merge (some (fun p q : A × B => c p.1 p.2 q.1 q.2)) seqs := by
  show (if (seqs.all fun s => s.isNone) = true then Except.ok []
      else mergeSeq2 (wrapCompare2 c) (wrapSources2 0 seqs))
    = (if (seqs.all fun s => s.isNone) = true then Except.ok []
      else mergeSeq (wrapCompare (fun p q : A × B => c p.1 p.2 q.1 q.2))
        (wrapSources 0 seqs))
  by_cases hall : (seqs.all fun s => s.isNone) = true
  · rw [if_pos hall, if_pos hall]
  · rw [if_neg hall, if_neg hall]
    rw [← wrapSources2_pack 0 seqs]
    rw [mergeSeq2_eq_mergeSeq]

/-! ### Frontier size accounting -/

/-- Total number of elements of source i as supplied to the engine. -/
def origLen {T : Type} (seqs : List (Option (List T))) (i : Nat) : Nat :=
  ((seqs[i]?.getD none).getD []).length

theorem initFrontier_pulls_length {T : Type} :
    ∀ (seqs : List (Option (List T))),
      (initFrontier seqs).2.length = seqs.length := by
  intro seqs
  induction seqs with
  | nil => rfl
  | cons s rest ih =>
    show ((probeSource s).2 :: (initFrontier rest).2).length = _
    simp [ih]

theorem remLenAt_cons_zero {T : Type} (p : Option (List T))
    (rest : List (Option (List T))) :
    remLenAt (p :: rest) 0 = (p.getD []).length := by
  unfold remLenAt
  cases p <;> simp

theorem remLenAt_cons_succ {T : Type} (p : Option (List T))
    (rest : List (Option (List T))) (i : Nat) :
    remLenAt (p :: rest) (i+1) = remLenAt rest i := by
  unfold remLenAt
  simp

theorem initFrontier_conserve {T : Type} (index : T → Nat) :
    ∀ (seqs : List (Option (List T))) (b : Nat), TaggedFrom index b seqs →
      ∀ i, countIdx index (initFrontier seqs).1 (b + i)
        + remLenAt (initFrontier seqs).2 i = origLen seqs i := by
  intro seqs
  induction seqs with
  | nil =>
    intro b htag i
    simp [initFrontier, countIdx, remLenAt, origLen]
  | cons s rest ih =>
    intro b htag i
    obtain ⟨htag0, htagr⟩ := taggedFrom_cons htag
    obtain ⟨_, ihItems, _⟩ := initFrontier_spec index rest (b+1) htagr
    have hge : ∀ y ∈ (initFrontier rest).1, b + 1 ≤ index y := by
      intro y hy
      obtain ⟨j, t, _, hidx, _⟩ := ihItems y hy
      omega
    cases i with
    | zero =>
      have hrl : origLen (s :: rest) 0 = ((s.getD [])).length := by
        simp [origLen]
      rw [hrl]
      cases s with
      | none =>
        show countIdx index (initFrontier rest).1 (b+0)
            + remLenAt (none :: (initFrontier rest).2) 0 = _
        have hz : countIdx index (initFrontier rest).1 (b+0) = 0 := by
          unfold countIdx
          rw [List.countP_eq_zero]
          intro y hy
          simp only [decide_eq_true_eq]
          have := hge y hy
          omega
        rw [hz, remLenAt_cons_zero]
        rfl
      | some l =>
        cases l with
        | nil =>
          show countIdx index (initFrontier rest).1 (b+0)
              + remLenAt (none :: (initFrontier rest).2) 0 = _
          have hz : countIdx index (initFrontier rest).1 (b+0) = 0 := by
            unfold countIdx
            rw [List.countP_eq_zero]
            intro y hy
            simp only [decide_eq_true_eq]
            have := hge y hy
            omega
          rw [hz, remLenAt_cons_zero]
          rfl
        | cons x t =>
          show countIdx index (x :: (initFrontier rest).1) (b+0)
              + remLenAt (some t :: (initFrontier rest).2) 0 = (x :: t).length
          rw [countIdx_cons]
          have hxb : index x = b := htag0 (x :: t) rfl x (List.mem_cons_self x t)
          have hz : countIdx index (initFrontier rest).1 (b+0) = 0 := by
            unfold countIdx
            rw [List.countP_eq_zero]
            intro y hy
            simp only [decide_eq_true_eq]
            have := hge y hy
            omega
          rw [hz, if_pos (by omega)]
          rw [remLenAt_cons_zero]
          simp
          omega
    | succ i =>
      have hih := ih (b+1) htagr i
      have hrl : origLen (s :: rest) (i+1) = origLen rest i := by
        simp [origLen]
      rw [hrl]
      have harith : b + (i + 1) = (b + 1) + i := by omega
      cases s with
      | none =>
        show countIdx index (initFrontier rest).1 (b+(i+1))
            + remLenAt (none :: (initFrontier rest).2) (i+1) = _
        rw [remLenAt_cons_succ, harith]
        exact hih
      | some l =>
        cases l with
        | nil =>
          show countIdx index (initFrontier rest).1 (b+(i+1))
              + remLenAt (none :: (initFrontier rest).2) (i+1) = _
          rw [remLenAt_cons_succ, harith]
          exact hih
        | cons x t =>
          show countIdx index (x :: (initFrontier rest).1) (b+(i+1))
              + remLenAt (some t :: (initFrontier rest).2) (i+1) = _
          rw [countIdx_cons]
          have hxb : index x = b := htag0 (x :: t) rfl x (List.mem_cons_self x t)
          rw [if_neg (by omega)]
          rw [remLenAt_cons_succ, harith]
          simpa using hih

/-- The loop invariant holds at the state mergeState.all reaches right
after initialization. -/
theorem mergeInit_loopInv {T : Type} (cmp : T → T → Int) (index : T → Nat)
    (hc : IsComparator cmp) (seqs : List (Option (List T)))
    (htag : TaggedFrom index 0 seqs) (hsort : SortedSeqs cmp seqs) :
    LoopInv cmp index (origLen seqs) seqs.length
      (mergeInitState cmp index seqs).1 (mergeInitState cmp index seqs).2
      [] := by
  refine ⟨mergeInit_safeInv cmp index seqs htag,
    mergeInit_orderInv cmp index hc seqs htag hsort, ?_, ?_⟩
  · intro i
    have hcnt : countIdx index (mergeInitState cmp index seqs).1 i
        = countIdx index (initFrontier seqs).1 i :=
      countIdx_perm index (heapInit_perm (mergeLess cmp index) _) i
    have hout : countIdx index ([] : List T) i = 0 := rfl
    have h2eq : (mergeInitState cmp index seqs).2
        = (initFrontier seqs).2 := rfl
    rw [hcnt, hout, h2eq]
    have := initFrontier_conserve index seqs 0 htag i
    simpa using this
  · have h2eq : (mergeInitState cmp index seqs).2
        = (initFrontier seqs).2 := rfl
    rw [h2eq]
    exact initFrontier_pulls_length seqs

/-- The frontier length is the sum over all sources of the per-source
frontier counts. -/
theorem length_eq_sum_countIdx {T : Type} (index : T → Nat) :
    ∀ (l : List T) (L : Nat), (∀ x ∈ l, index x < L) →
      l.length = ∑ i ∈ Finset.range L, countIdx index l i := by
  intro l
  induction l with
  | nil =>
    intro L _
    simp [countIdx]
  | cons x xs ih =>
    intro L hmem
    have hx : index x < L := hmem x (List.mem_cons_self x xs)
    have hxs : ∀ y ∈ xs, index y < L :=
      fun y hy => hmem y (List.mem_cons_of_mem x hy)
    have hsum : ∀ i ∈ Finset.range L,
        countIdx index (x :: xs) i
          = countIdx index xs i + (if index x = i then 1 else 0) :=
      fun i _ => countIdx_cons index x xs i
    rw [Finset.sum_congr rfl hsum, Finset.sum_add_distrib]
    rw [Finset.sum_ite_eq (Finset.range L) (index x) (fun _ => 1)]
    rw [if_pos (Finset.mem_range.mpr hx)]
    rw [← ih L hxs]
    simp

theorem sum_eq_card_filter_pos (g : Nat → Nat) (s : Finset Nat)
    (hle : ∀ i ∈ s, g i ≤ 1) :
    ∑ i ∈ s, g i = (s.filter (fun i => 0 < g i)).card := by
  rw [Finset.card_filter]
  apply Finset.sum_congr rfl
  intro i hi
  have := hle i hi
  by_cases h : 0 < g i
  · rw [if_pos h]; omega
  · rw [if_neg h]; omega

/-! ### Shared helpers for the top-level results -/

/-- A concrete three-way integer comparator used to instantiate results. -/
def intCmp : Int → Int → Int :=
  fun a b => if a < b then -1 else if b < a then 1 else 0

theorem intCmp_isComparator : IsComparator intCmp := by
  constructor
  · intro a b
    unfold intCmp
    split_ifs <;> omega
  · intro a b c
    unfold intCmp
    split_ifs <;> omega

theorem allNone_flatten {T : Type} :
    ∀ (seqs : List (Option (List T))), seqs.all (fun s => s.isNone) = true →
      ((seqs.map (fun o => o.getD [])).flatten) = [] := by
  intro seqs
  induction seqs with
  | nil => intro _; rfl
  | cons s rest ih =>
    intro h
    rw [List.all_cons, Bool.and_eq_true] at h
    cases s with
    | none => simpa using ih h.2
    | some l => cases h.1

theorem wrapSeq_map_v {A : Type} (i : Nat) (s : List A) :
    (wrapSeq i s).map (fun v => v.v) = s := by
  unfold wrapSeq
  rw [List.map_map]
  exact List.map_id' s

theorem heapInit_singleton {T : Type} (lt : T → T → Bool) (x : T) :
    heapInit lt [x] = [x] := by
  simp [heapInit, heapInitLoop]

theorem mergeStateAll_eq_of_runAll {T : Type} (cmp : T → T → Int)
    (index : T → Nat) (seqs : List (Option (List T))) (out : List T)
    (fin : List T × List (Option (List T))) (c : Nat)
    (h : runAll (mergeLess cmp index) index (mergeInitState cmp index seqs)
      = .ok (out, fin, c)) :
    mergeStateAll cmp index seqs = .ok (out, c) := by
  unfold mergeStateAll
  rw [h]

theorem mergeSeq_eq_of_all {A : Type}
    (cmp : wrappedSeqValue A → wrappedSeqValue A → Int)
    (seqs : List (Option (List (wrappedSeqValue A))))
    (out : List (wrappedSeqValue A)) (c : Nat)
    (h : mergeStateAll cmp wrappedSeqValue.index seqs = .ok (out, c)) :
    mergeSeq cmp seqs = .ok (out.map (fun v => v.v)) := by
  unfold mergeSeq
  rw [h]

/-- Merging a single non-nil source reproduces it unchanged, whatever the
comparator. -/
theorem merge_singleSource {A : Type} (cmp : A → A → Int) (s : List A) :
    Merge (some cmp) [some s] = .ok s := by
  show (if ([some s].all fun o => o.isNone) = true then Except.ok []
    else mergeSeq (wrapCompare cmp) (wrapSources 0 [some s])) = Except.ok s
  rw [if_neg (by simp)]
  show mergeSeq (wrapCompare cmp) [some (wrapSeq 0 s)] = Except.ok s
  cases s with
  | nil =>
    have hrun : runAll (mergeLess (wrapCompare cmp) wrappedSeqValue.index)
        wrappedSeqValue.index
        (mergeInitState (wrapCompare cmp) wrappedSeqValue.index
          [some (wrapSeq 0 [])])
        = .ok ([], ([], [none]), 0) := by
      have hinit : mergeInitState (wrapCompare cmp) wrappedSeqValue.index
          [some (wrapSeq 0 ([] : List A))]
          = (([] : List (wrappedSeqValue A)), [none]) := by
        show (heapInit (mergeLess (wrapCompare cmp) wrappedSeqValue.index)
            ([] : List (wrappedSeqValue A)), [none])
          = (([] : List (wrappedSeqValue A)), [none])
        rw [show heapInit (mergeLess (wrapCompare cmp) wrappedSeqValue.index)
            ([] : List (wrappedSeqValue A)) = [] by simp [heapInit, heapInitLoop]]
      rw [hinit]
      exact runAll_eq_terminal _ _ _ (mergeStep_empty _ _ [none])
    rw [mergeSeq_eq_of_all _ _ [] 0
      (mergeStateAll_eq_of_runAll _ _ _ [] ([], [none]) 0 hrun)]
    rfl
  | cons h t =>
    have htags : ∀ y ∈ wrapSeq 0 t, wrappedSeqValue.index y = 0 := by
      intro y hy
      unfold wrapSeq at hy
      obtain ⟨a, _, rfl⟩ := List.mem_map.mp hy
      rfl
    have hrun : runAll (mergeLess (wrapCompare cmp) wrappedSeqValue.index)
        wrappedSeqValue.index
        (mergeInitState (wrapCompare cmp) wrappedSeqValue.index
          [some (wrapSeq 0 (h :: t))])
        = .ok (⟨0, h⟩ :: wrapSeq 0 t, ([], [some []]),
            (wrapSeq 0 t).length + 1) := by
      have hinit : mergeInitState (wrapCompare cmp) wrappedSeqValue.index
          [some (wrapSeq 0 (h :: t))]
          = ([⟨0, h⟩], [some (wrapSeq 0 t)]) := by
        show (heapInit (mergeLess (wrapCompare cmp) wrappedSeqValue.index)
            [⟨0, h⟩], [some (wrapSeq 0 t)])
          = ([⟨0, h⟩], [some (wrapSeq 0 t)])
        rw [heapInit_singleton]
      rw [hinit]
      exact runAll_single _ _ (wrapSeq 0 t) ⟨0, h⟩ rfl htags
    rw [mergeSeq_eq_of_all _ _ (⟨0, h⟩ :: wrapSeq 0 t) _
      (mergeStateAll_eq_of_runAll _ _ _ _ ([], [some []]) _ hrun)]
    show Except.ok (h :: (wrapSeq 0 t).map (fun v => v.v)) = _
    rw [wrapSeq_map_v]

/-! ### The claims -/

/-- C1: for every finite list of input sequences, each individually sorted
per the comparator, Merge yields a sorted output (non-decreasing per that
comparator) that is a permutation of all input elements, so its length is
the sum of the input lengths and every input element appears exactly
once. -/
theorem C1_merge_sorted_total {A : Type} (cmp : A → A → Int)
    (hc : IsComparator cmp) (seqs : List (Option (List A)))
    (hsort : ∀ (i : Nat) (l : List A), seqs[i]? = some (some l) →
      l.Pairwise (fun a b => cmp a b ≤ 0)) :
    ∃ out, Merge (some cmp) seqs = .ok out ∧
      out.Pairwise (fun a b => cmp a b ≤ 0) ∧
      List.Perm out ((seqs.map (fun o => o.getD [])).flatten) ∧
      out.length = (seqs.map (fun o => (o.getD []).length)).sum := by
  by_cases hall : (seqs.all fun s => s.isNone) = true
  · refine ⟨[], ?_, List.Pairwise.nil, ?_, ?_⟩
    · show (if (seqs.all fun s => s.isNone) = true then Except.ok []
        else mergeSeq (wrapCompare cmp) (wrapSources 0 seqs)) = _
      rw [if_pos hall]
    · rw [allNone_flatten seqs hall]
    · have h1 : ((seqs.map (fun o => o.getD [])).flatten).length = 0 := by
        rw [allNone_flatten seqs hall]
        rfl
      rw [List.length_flatten, List.map_map] at h1
      exact h1.symm
  · have htag := wrapSources_tagged seqs 0
    have hwsort := wrapSources_sorted cmp seqs hsort 0
    have hwc := wrapCompare_isComparator hc
    obtain ⟨wout, hok, hperm⟩ := mergeStateAll_ok (wrapCompare cmp)
      wrappedSeqValue.index (wrapSources 0 seqs) htag
    have hps := mergeStateAll_sorted (wrapCompare cmp) wrappedSeqValue.index
      hwc (wrapSources 0 seqs) htag hwsort wout wout.length hok
    have hmapperm : List.Perm (wout.map (fun v => v.v))
        ((seqs.map (fun o => o.getD [])).flatten) := by
      have hmap := hperm.map (fun v => v.v)
      rw [wrapSources_flatten seqs 0] at hmap
      exact hmap
    refine ⟨wout.map (fun v => v.v), ?_, ?_, hmapperm, ?_⟩
    · show (if (seqs.all fun s => s.isNone) = true then Except.ok []
        else mergeSeq (wrapCompare cmp) (wrapSources 0 seqs)) = _
      rw [if_neg hall]
      exact mergeSeq_eq_of_all _ _ wout wout.length hok
    · rw [List.pairwise_map]
      apply hps.imp
      intro a b hab
      rw [mergeLess_false_iff] at hab
      rcases hab with h1 | ⟨h1, _⟩
      · have h1v : 0 < cmp b.v a.v := h1
        have h2 := (hc.flip_sign a.v b.v).mpr h1v
        omega
      · have h1v : cmp b.v a.v = 0 := h1
        have h2 := hc.zero_symm h1v
        omega
    · rw [hmapperm.length_eq, List.length_flatten, List.map_map]
      rfl

theorem C1_merge_sorted_total_witness :
    ∃ out, Merge (some intCmp) [some [(1:Int), 3], some [2]] = .ok out ∧
      out.Pairwise (fun a b => intCmp a b ≤ 0) ∧
      List.Perm out
        (([some [(1:Int), 3], some [2]].map (fun o => o.getD [])).flatten) ∧
      out.length
        = ([some [(1:Int), 3], some [2]].map
            (fun o => (o.getD []).length)).sum :=
  C1_merge_sorted_total intCmp intCmp_isComparator
    [some [(1:Int), 3], some [2]]
    (by
      intro i l h
      match i with
      | 0 =>
        simp only [List.getElem?_cons_zero, Option.some.injEq] at h
        subst h
        decide
      | 1 =>
        simp only [List.getElem?_cons_succ, List.getElem?_cons_zero,
          Option.some.injEq] at h
        subst h
        decide
      | (n+2) => simp at h)

/-- C2: Merge is stable: the engine orders the heap by the caller's
comparator first, falling back to ascending source index exactly on a zero
result, so in the emitted order any two elements whose values compare
equal appear with their source indices in ascending order; hence an
element of a lower-indexed source precedes every value-equal element of a
higher-indexed source. -/
theorem C2_merge_stable {A : Type} (cmp : A → A → Int)
    (hc : IsComparator cmp) (seqs : List (Option (List A)))
    (hsort : ∀ (i : Nat) (l : List A), seqs[i]? = some (some l) →
      l.Pairwise (fun a b => cmp a b ≤ 0))
    (hnz : (seqs.all fun s => s.isNone) = false) :
    ∃ (wout : List (wrappedSeqValue A)) (c : Nat),
      mergeStateAll (wrapCompare cmp) wrappedSeqValue.index
        (wrapSources 0 seqs) = .ok (wout, c) ∧
      Merge (some cmp) seqs = .ok (wout.map (fun v => v.v)) ∧
      List.Perm wout
        (((wrapSources 0 seqs).map (fun o => o.getD [])).flatten) ∧
      wout.Pairwise (fun a b => cmp a.v b.v = 0 →
        wrappedSeqValue.index a ≤ wrappedSeqValue.index b) ∧
      (∀ a b : wrappedSeqValue A,
        mergeLess (wrapCompare cmp) wrappedSeqValue.index a b
          = (if cmp a.v b.v ≠ 0 then decide (cmp a.v b.v < 0)
             else decide (wrappedSeqValue.index a
               < wrappedSeqValue.index b))) := by
  have htag := wrapSources_tagged seqs 0
  have hwsort := wrapSources_sorted cmp seqs hsort 0
  have hwc := wrapCompare_isComparator hc
  obtain ⟨wout, hok, hperm⟩ := mergeStateAll_ok (wrapCompare cmp)
    wrappedSeqValue.index (wrapSources 0 seqs) htag
  have hps := mergeStateAll_sorted (wrapCompare cmp) wrappedSeqValue.index
    hwc (wrapSources 0 seqs) htag hwsort wout wout.length hok
  refine ⟨wout, wout.length, hok, ?_, hperm, ?_, fun a b => rfl⟩
  · show (if (seqs.all fun s => s.isNone) = true then Except.ok []
      else mergeSeq (wrapCompare cmp) (wrapSources 0 seqs)) = _
    rw [if_neg (by simp [hnz])]
    exact mergeSeq_eq_of_all _ _ wout wout.length hok
  · apply hps.imp
    intro a b hab heq
    rw [mergeLess_false_iff] at hab
    rcases hab with h1 | ⟨_, h2⟩
    · have h1v : 0 < cmp b.v a.v := h1
      have h2 := (hc.flip_sign a.v b.v).mpr h1v
      omega
    · exact h2

theorem C2_merge_stable_witness :
    ∃ (wout : List (wrappedSeqValue Int)) (c : Nat),
      mergeStateAll (wrapCompare intCmp) wrappedSeqValue.index
        (wrapSources 0 [some [(1:Int)], some [1]]) = .ok (wout, c) ∧
      Merge (some intCmp) [some [(1:Int)], some [1]]
        = .ok (wout.map (fun v => v.v)) ∧
      List.Perm wout
        (((wrapSources 0 [some [(1:Int)], some [1]]).map
          (fun o => o.getD [])).flatten) ∧
      wout.Pairwise (fun a b => intCmp a.v b.v = 0 →
        wrappedSeqValue.index a ≤ wrappedSeqValue.index b) ∧
      (∀ a b : wrappedSeqValue Int,
        mergeLess (wrapCompare intCmp) wrappedSeqValue.index a b
          = (if intCmp a.v b.v ≠ 0 then decide (intCmp a.v b.v < 0)
             else decide (wrappedSeqValue.index a
               < wrappedSeqValue.index b))) :=
  C2_merge_stable intCmp intCmp_isComparator [some [(1:Int)], some [1]]
    (by
      intro i l h
      match i with
      | 0 =>
        simp only [List.getElem?_cons_zero, Option.some.injEq] at h
        subst h
        decide
      | 1 =>
        simp only [List.getElem?_cons_succ, List.getElem?_cons_zero,
          Option.some.injEq] at h
        subst h
        decide
      | (n+2) => simp at h)
    rfl

/-- C3: if consumption of the merged sequence stops after k elements, the
elements yielded are exactly the first k of the full merge, and the loop
performs only the pulls needed for them — min (k-1) N loop pulls where N
is the full output length — so no source is pulled after the consumer
signals stop. -/
theorem C3_early_termination {A : Type} (cmp : A → A → Int)
    (seqs : List (Option (List A))) (k : Nat) (out : List A)
    (hok : Merge (some cmp) seqs = .ok out) :
    MergeStop cmp seqs k = .ok (out.take k, min (k - 1) out.length) := by
  by_cases hall : (seqs.all fun s => s.isNone) = true
  · have hM : Merge (some cmp) seqs = .ok ([] : List A) := by
      show (if (seqs.all fun s => s.isNone) = true then Except.ok []
        else mergeSeq (wrapCompare cmp) (wrapSources 0 seqs)) = _
      rw [if_pos hall]
    rw [hok] at hM
    injection hM with hM2
    subst hM2
    show (if (seqs.all fun s => s.isNone) = true then Except.ok ([], 0)
      else _) = _
    rw [if_pos hall]
    simp
  · have htag := wrapSources_tagged seqs 0
    have hinv := mergeInit_safeInv (wrapCompare cmp) wrappedSeqValue.index
      (wrapSources 0 seqs) htag
    obtain ⟨wout, fin, hrun, _⟩ := runAll_safe
      (mergeLess (wrapCompare cmp) wrappedSeqValue.index)
      wrappedSeqValue.index
      (stateSize (mergeInitState (wrapCompare cmp) wrappedSeqValue.index
        (wrapSources 0 seqs)))
      (mergeInitState (wrapCompare cmp) wrappedSeqValue.index
        (wrapSources 0 seqs)).1
      (mergeInitState (wrapCompare cmp) wrappedSeqValue.index
        (wrapSources 0 seqs)).2
      (Nat.le_refl _) hinv
    rw [show ((mergeInitState (wrapCompare cmp) wrappedSeqValue.index
        (wrapSources 0 seqs)).1,
        (mergeInitState (wrapCompare cmp) wrappedSeqValue.index
          (wrapSources 0 seqs)).2)
      = mergeInitState (wrapCompare cmp) wrappedSeqValue.index
        (wrapSources 0 seqs) from rfl] at hrun
    have hM : Merge (some cmp) seqs = .ok (wout.map (fun v => v.v)) := by
      show (if (seqs.all fun s => s.isNone) = true then Except.ok []
        else mergeSeq (wrapCompare cmp) (wrapSources 0 seqs)) = _
      rw [if_neg hall]
      exact mergeSeq_eq_of_all _ _ wout wout.length
        (mergeStateAll_eq_of_runAll _ _ _ wout fin wout.length hrun)
    rw [hok] at hM
    injection hM with hM2
    subst hM2
    obtain ⟨fin2, hstop⟩ := runStop_take
      (mergeLess (wrapCompare cmp) wrappedSeqValue.index)
      wrappedSeqValue.index
      (stateSize (mergeInitState (wrapCompare cmp) wrappedSeqValue.index
        (wrapSources 0 seqs)))
      (mergeInitState (wrapCompare cmp) wrappedSeqValue.index
        (wrapSources 0 seqs)).1
      (mergeInitState (wrapCompare cmp) wrappedSeqValue.index
        (wrapSources 0 seqs)).2
      k (Nat.le_refl _) hinv wout fin
      (by
        rw [show ((mergeInitState (wrapCompare cmp) wrappedSeqValue.index
            (wrapSources 0 seqs)).1,
            (mergeInitState (wrapCompare cmp) wrappedSeqValue.index
              (wrapSources 0 seqs)).2)
          = mergeInitState (wrapCompare cmp) wrappedSeqValue.index
            (wrapSources 0 seqs) from rfl]
        exact hrun)
    rw [show ((mergeInitState (wrapCompare cmp) wrappedSeqValue.index
        (wrapSources 0 seqs)).1,
        (mergeInitState (wrapCompare cmp) wrappedSeqValue.index
          (wrapSources 0 seqs)).2)
      = mergeInitState (wrapCompare cmp) wrappedSeqValue.index
        (wrapSources 0 seqs) from rfl] at hstop
    show (if (seqs.all fun s => s.isNone) = true then Except.ok ([], 0)
      else match runStop (mergeLess (wrapCompare cmp) wrappedSeqValue.index)
          wrappedSeqValue.index k
          (mergeInitState (wrapCompare cmp) wrappedSeqValue.index
            (wrapSources 0 seqs)) with
        | Except.error e => Except.error e
        | Except.ok (out2, _, c) =>
          Except.ok (out2.map (fun v => v.v), c)) = _
    rw [if_neg hall, hstop]
    show Except.ok ((wout.take k).map (fun v => v.v),
        min (k - 1) wout.length) = _
    rw [← List.map_take]
    rw [List.length_map]

theorem C3_early_termination_witness :
    MergeStop intCmp [some [(10:Int), 20]] 1
      = .ok ([(10:Int), 20].take 1, min (1 - 1) [(10:Int), 20].length) :=
  C3_early_termination intCmp [some [(10:Int), 20]] 1 [(10:Int), 20]
    (merge_singleSource intCmp [(10:Int), 20])

/-- C4: Merge and Merge2 called with a nil comparator fail immediately
with the nil-comparison panic, before any heap state is built and before
any element is yielded, for every choice of source arguments. -/
theorem C4_nil_comparator_panics {A B : Type}
    (seqs : List (Option (List A)))
    (seqs2 : List (Option (List (A × B)))) :
    Merge (none : Option (A → A → Int)) seqs
        = .error "kway: nil comparison function" ∧
      Merge2 (none : Option (A → B → A → B → Int)) seqs2
        = .error "kway: nil comparison function" :=
  ⟨rfl, rfl⟩

/-- C5: with a non-nil comparator: no sources at all, or all sources nil,
yield the empty output with zero existence probes and zero loop pulls
(the all-absent short circuit builds no heap state); a single empty
non-nil source yields the empty output after exactly one existence probe
and zero loop pulls. -/
theorem C5_absence_handling {A : Type} (cmp : A → A → Int)
    (seqs : List (Option (List A)))
    (hall : seqs.all (fun s => s.isNone) = true) :
    MergeInstr (some cmp) seqs = .ok ([], 0, 0) ∧
      MergeInstr (some cmp) ([] : List (Option (List A))) = .ok ([], 0, 0) ∧
      MergeInstr (some cmp) [some ([] : List A)] = .ok ([], 1, 0) := by
  refine ⟨?_, rfl, ?_⟩
  · show (if (seqs.all fun s => s.isNone) = true then Except.ok ([], 0, 0)
      else _) = _
    rw [if_pos hall]
  · have hrun : runAll (mergeLess (wrapCompare cmp) wrappedSeqValue.index)
        wrappedSeqValue.index
        (mergeInitState (wrapCompare cmp) wrappedSeqValue.index
          [some ([] : List (wrappedSeqValue A))])
        = .ok ([], ([], [none]), 0) := by
      have hinit : mergeInitState (wrapCompare cmp) wrappedSeqValue.index
          [some ([] : List (wrappedSeqValue A))]
          = (([] : List (wrappedSeqValue A)), [none]) := by
        show (heapInit (mergeLess (wrapCompare cmp) wrappedSeqValue.index)
            ([] : List (wrappedSeqValue A)), [none])
          = (([] : List (wrappedSeqValue A)), [none])
        rw [show heapInit (mergeLess (wrapCompare cmp) wrappedSeqValue.index)
            ([] : List (wrappedSeqValue A)) = []
          by simp [heapInit, heapInitLoop]]
      rw [hinit]
      exact runAll_eq_terminal _ _ _ (mergeStep_empty _ _ [none])
    have hma := mergeStateAll_eq_of_runAll (wrapCompare cmp)
      wrappedSeqValue.index [some ([] : List (wrappedSeqValue A))]
      [] ([], [none]) 0 hrun
    show (if (([some ([] : List A)]).all fun s => s.isNone) = true
      then Except.ok ([], 0, 0)
      else match mergeStateAll (wrapCompare cmp) wrappedSeqValue.index
          (wrapSources 0 [some ([] : List A)]) with
        | Except.error e => Except.error e
        | Except.ok (out, calls) =>
          Except.ok (out.map (fun v => v.v),
            probeCalls [some ([] : List A)], calls))
      = Except.ok ([], 1, 0)
    rw [if_neg (by simp)]
    rw [show wrapSources 0 [some ([] : List A)]
      = [some ([] : List (wrappedSeqValue A))] from rfl]
    rw [hma]
    rfl

theorem C5_absence_handling_witness :
    MergeInstr (some intCmp) [none, none] = .ok ([], 0, 0) ∧
      MergeInstr (some intCmp) ([] : List (Option (List Int)))
        = .ok ([], 0, 0) ∧
      MergeInstr (some intCmp) [some ([] : List Int)] = .ok ([], 1, 0) :=
  C5_absence_handling intCmp [none, none] rfl

/-- C6: single-source identity: for every sequence s and every comparator
cmp, Merge cmp [s] yields exactly the elements of s in their original
order, with no sortedness requirement on s. -/
theorem C6_single_source_identity {A : Type} (cmp : A → A → Int)
    (s : List A) : Merge (some cmp) [some s] = .ok s :=
  merge_singleSource cmp s

/-- C9: Merge2 is Merge modulo pair packing: for every 4-argument
comparator and every list of key/value sequences, Merge2 returns exactly
what Merge returns over (key, value) tuples with the comparator adapted
to take the pairs apart, so the merged order coincides and every yielded
pair keeps its source key/value correspondence. -/
theorem C9_merge2_equals_merge {A B : Type} (c : A → B → A → B → Int)
    (seqs : List (Option (List (A × B)))) :
    Merge2 (some c) seqs
      = Merge (some (fun p q : A × B => c p.1 p.2 q.1 q.2)) seqs :=
  Merge2_eq_Merge c seqs

/-- C7: at every state the merge loop reaches, the heap holds at most one
element per source, its size equals the number of sources that have
produced an element not yet emitted, the binary-heap property for the
(comparator value, then source index) order holds, and the root is a
global minimum of the frontier. -/
theorem C7_frontier_invariants {T : Type} (cmp : T → T → Int)
    (index : T → Nat) (hc : IsComparator cmp)
    (seqs : List (Option (List T))) (htag : TaggedFrom index 0 seqs)
    (hsort : SortedSeqs cmp seqs) (n : Nat) (items2 : List T)
    (pulls2 : List (Option (List T))) (out2 : List T)
    (hreach : iterMerge (mergeLess cmp index) index n
        ((mergeInitState cmp index seqs).1,
         (mergeInitState cmp index seqs).2, [])
      = .ok (items2, pulls2, out2)) :
    (∀ i, countIdx index items2 i ≤ 1) ∧
    items2.length
      = ((Finset.range seqs.length).filter
          (fun i => countIdx index out2 i + remLenAt pulls2 i
            < origLen seqs i)).card ∧
    IsHeap (mergeLess cmp index) items2 ∧
    (∀ (hne : items2 ≠ []) (x : T), x ∈ items2 →
      mergeLess cmp index x (items2.head hne) = false) := by
  have hinv : LoopInv cmp index (origLen seqs) seqs.length items2 pulls2
      out2 :=
    iterMerge_loopInv hc n (mergeInitState cmp index seqs).1
      (mergeInitState cmp index seqs).2 [] (items2, pulls2, out2)
      (mergeInit_loopInv cmp index hc seqs htag hsort) hreach
  have hle1 : ∀ i, countIdx index items2 i ≤ 1 :=
    countIdx_le_one index items2 hinv.safe.distinct
  refine ⟨hle1, ?_, hinv.order.heap, ?_⟩
  · have hlt : ∀ x ∈ items2, index x < seqs.length := by
      intro x hx
      obtain ⟨rem, hget, _⟩ := hinv.safe.active x hx
      have h1 := getElem?_some_lt hget
      have h2 := hinv.plen
      omega
    rw [length_eq_sum_countIdx index items2 seqs.length hlt]
    rw [sum_eq_card_filter_pos (fun i => countIdx index items2 i)
      (Finset.range seqs.length) (fun i _ => hle1 i)]
    congr 1
    apply Finset.filter_congr
    intro i _
    have hcons := hinv.conserve i
    constructor
    · intro h
      simp only [decide_eq_true_eq] at h ⊢
      omega
    · intro h
      simp only [decide_eq_true_eq] at h ⊢
      omega
  · intro hne x hx
    exact isHeap_head_min (mergeLess_ltSpec index hc) items2
      hinv.order.heap hne x hx

theorem C7_frontier_invariants_witness :
    (∀ i, countIdx wrappedSeqValue.index
      (mergeInitState (wrapCompare intCmp) wrappedSeqValue.index
        (wrapSources 0 [some [(5:Int), 7]])).1 i ≤ 1) ∧
    (mergeInitState (wrapCompare intCmp) wrappedSeqValue.index
        (wrapSources 0 [some [(5:Int), 7]])).1.length
      = ((Finset.range (wrapSources 0 [some [(5:Int), 7]]).length).filter
          (fun i => countIdx wrappedSeqValue.index
              ([] : List (wrappedSeqValue Int)) i
            + remLenAt (mergeInitState (wrapCompare intCmp)
                wrappedSeqValue.index
                (wrapSources 0 [some [(5:Int), 7]])).2 i
            < origLen (wrapSources 0 [some [(5:Int), 7]]) i)).card ∧
    IsHeap (mergeLess (wrapCompare intCmp) wrappedSeqValue.index)
      (mergeInitState (wrapCompare intCmp) wrappedSeqValue.index
        (wrapSources 0 [some [(5:Int), 7]])).1 ∧
    (∀ (hne : (mergeInitState (wrapCompare intCmp) wrappedSeqValue.index
        (wrapSources 0 [some [(5:Int), 7]])).1 ≠ [])
      (x : wrappedSeqValue Int),
      x ∈ (mergeInitState (wrapCompare intCmp) wrappedSeqValue.index
        (wrapSources 0 [some [(5:Int), 7]])).1 →
      mergeLess (wrapCompare intCmp) wrappedSeqValue.index x
        ((mergeInitState (wrapCompare intCmp) wrappedSeqValue.index
          (wrapSources 0 [some [(5:Int), 7]])).1.head hne) = false) :=
  C7_frontier_invariants (wrapCompare intCmp) wrappedSeqValue.index
    (wrapCompare_isComparator intCmp_isComparator)
    (wrapSources 0 [some [(5:Int), 7]])
    (wrapSources_tagged [some [(5:Int), 7]] 0)
    (wrapSources_sorted intCmp [some [(5:Int), 7]]
      (by
        intro i l h
        match i with
        | 0 =>
          simp only [List.getElem?_cons_zero, Option.some.injEq] at h
          subst h
          decide
        | (n+1) => simp at h)
      0)
    0
    (mergeInitState (wrapCompare intCmp) wrappedSeqValue.index
      (wrapSources 0 [some [(5:Int), 7]])).1
    (mergeInitState (wrapCompare intCmp) wrappedSeqValue.index
      (wrapSources 0 [some [(5:Int), 7]])).2
    [] rfl

/-- C8: one continued iteration of the main loop pops the minimum v and
pulls exactly one more element from the very source that produced v: if
that source yields a value, the value (tagged with the same source) is
pushed onto the heap, restoring the heap invariant and keeping the
frontier size; if the source is exhausted, the slot is not refilled, the
heap invariant still holds, and the frontier shrinks by one. -/
theorem C8_refill_same_source {T : Type} (cmp : T → T → Int)
    (index : T → Nat) (hc : IsComparator cmp) (items : List T)
    (pulls : List (Option (List T)))
    (hs : SafeInv index items pulls)
    (ho : OrderInv cmp index items pulls) (hne : items ≠ []) :
    ∃ v rest rem,
      heapPop (mergeLess cmp index) items = some (v, rest) ∧
      List.Perm (v :: rest) items ∧
      pulls[index v]? = some (some rem) ∧
      (∀ y ∈ rem, index y = index v) ∧
      ((rem = [] ∧
        mergeStep (mergeLess cmp index) index (items, pulls)
          = .ok (some (v, (rest, pulls))) ∧
        rest.length + 1 = items.length ∧
        IsHeap (mergeLess cmp index) rest) ∨
       (∃ h t, rem = h :: t ∧
        mergeStep (mergeLess cmp index) index (items, pulls)
          = .ok (some (v, (heapPush (mergeLess cmp index) rest h,
              pulls.set (index v) (some t)))) ∧
        index h = index v ∧
        (heapPush (mergeLess cmp index) rest h).length = items.length ∧
        IsHeap (mergeLess cmp index)
          (heapPush (mergeLess cmp index) rest h))) := by
  obtain ⟨v, rest, rem, hpop, hperm, hrem, htags, hcase⟩ :=
    mergeStep_spec (mergeLess cmp index) index items pulls hs hne
  obtain ⟨v2, rest2, hpop2, hperm2, hheap2, hmin2⟩ :=
    heapPop_minSpec (mergeLess_ltSpec index hc) items ho.heap hne
  rw [hpop] at hpop2
  simp only [Option.some.injEq, Prod.mk.injEq] at hpop2
  obtain ⟨hv, hr⟩ := hpop2
  subst hv
  subst hr
  have hlen : rest.length + 1 = items.length := by
    have := hperm.length_eq
    simpa using this
  refine ⟨v, rest, rem, hpop, hperm, hrem, htags, ?_⟩
  rcases hcase with ⟨hrnil, hms⟩ | ⟨h, t, hrcons, hms⟩
  · exact Or.inl ⟨hrnil, hms, hlen, hheap2⟩
  · refine Or.inr ⟨h, t, hrcons, hms, ?_, ?_,
      heapPush_isHeap (mergeLess_ltSpec index hc) rest h hheap2⟩
    · apply htags
      rw [hrcons]
      exact List.mem_cons_self h t
    · rw [heapPush_length]
      omega

theorem C8_refill_same_source_witness :
    ∃ v rest rem,
      heapPop (mergeLess (wrapCompare intCmp) wrappedSeqValue.index)
        (mergeInitState (wrapCompare intCmp) wrappedSeqValue.index
          (wrapSources 0 [some [(1:Int), 2]])).1 = some (v, rest) ∧
      List.Perm (v :: rest)
        (mergeInitState (wrapCompare intCmp) wrappedSeqValue.index
          (wrapSources 0 [some [(1:Int), 2]])).1 ∧
      (mergeInitState (wrapCompare intCmp) wrappedSeqValue.index
        (wrapSources 0 [some [(1:Int), 2]])).2[wrappedSeqValue.index v]?
        = some (some rem) ∧
      (∀ y ∈ rem, wrappedSeqValue.index y = wrappedSeqValue.index v) ∧
      ((rem = [] ∧
        mergeStep (mergeLess (wrapCompare intCmp) wrappedSeqValue.index)
            wrappedSeqValue.index
            ((mergeInitState (wrapCompare intCmp) wrappedSeqValue.index
              (wrapSources 0 [some [(1:Int), 2]])).1,
             (mergeInitState (wrapCompare intCmp) wrappedSeqValue.index
              (wrapSources 0 [some [(1:Int), 2]])).2)
          = .ok (some (v, (rest,
              (mergeInitState (wrapCompare intCmp) wrappedSeqValue.index
                (wrapSources 0 [some [(1:Int), 2]])).2))) ∧
        rest.length + 1
          = (mergeInitState (wrapCompare intCmp) wrappedSeqValue.index
              (wrapSources 0 [some [(1:Int), 2]])).1.length ∧
        IsHeap (mergeLess (wrapCompare intCmp) wrappedSeqValue.index)
          rest) ∨
       (∃ h t, rem = h :: t ∧
        mergeStep (mergeLess (wrapCompare intCmp) wrappedSeqValue.index)
            wrappedSeqValue.index
            ((mergeInitState (wrapCompare intCmp) wrappedSeqValue.index
              (wrapSources 0 [some [(1:Int), 2]])).1,
             (mergeInitState (wrapCompare intCmp) wrappedSeqValue.index
              (wrapSources 0 [some [(1:Int), 2]])).2)
          = .ok (some (v, (heapPush
              (mergeLess (wrapCompare intCmp) wrappedSeqValue.index)
              rest h,
              (mergeInitState (wrapCompare intCmp) wrappedSeqValue.index
                (wrapSources 0 [some [(1:Int), 2]])).2.set
                (wrappedSeqValue.index v) (some t)))) ∧
        wrappedSeqValue.index h = wrappedSeqValue.index v ∧
        (heapPush (mergeLess (wrapCompare intCmp) wrappedSeqValue.index)
            rest h).length
          = (mergeInitState (wrapCompare intCmp) wrappedSeqValue.index
              (wrapSources 0 [some [(1:Int), 2]])).1.length ∧
        IsHeap (mergeLess (wrapCompare intCmp) wrappedSeqValue.index)
          (heapPush (mergeLess (wrapCompare intCmp) wrappedSeqValue.index)
            rest h))) :=
  C8_refill_same_source (wrapCompare intCmp) wrappedSeqValue.index
    (wrapCompare_isComparator intCmp_isComparator)
    (mergeInitState (wrapCompare intCmp) wrappedSeqValue.index
      (wrapSources 0 [some [(1:Int), 2]])).1
    (mergeInitState (wrapCompare intCmp) wrappedSeqValue.index
      (wrapSources 0 [some [(1:Int), 2]])).2
    (mergeInit_safeInv (wrapCompare intCmp) wrappedSeqValue.index
      (wrapSources 0 [some [(1:Int), 2]])
      (wrapSources_tagged [some [(1:Int), 2]] 0))
    (mergeInit_orderInv (wrapCompare intCmp) wrappedSeqValue.index
      (wrapCompare_isComparator intCmp_isComparator)
      (wrapSources 0 [some [(1:Int), 2]])
      (wrapSources_tagged [some [(1:Int), 2]] 0)
      (wrapSources_sorted intCmp [some [(1:Int), 2]]
        (by
          intro i l h
          match i with
          | 0 =>
            simp only [List.getElem?_cons_zero, Option.some.injEq] at h
            subst h
            decide
          | (n+1) => simp at h)
        0))
    (by
      intro hcc
      rw [show (mergeInitState (wrapCompare intCmp) wrappedSeqValue.index
          (wrapSources 0 [some [(1:Int), 2]])).1 = [⟨0, 1⟩] from by
        show heapInit (mergeLess (wrapCompare intCmp) wrappedSeqValue.index)
          [⟨0, (1:Int)⟩] = [⟨0, 1⟩]
        exact heapInit_singleton _ _] at hcc
      cases hcc)

/-- C10: at every reachable loop state, when the heap is non-empty the
popped element's index is a valid position of the pulls slice, the pull
function stored there is non-nil, and the refill call succeeds, so the
loop never faults on a nil function or an out-of-range index. -/
theorem C10_refill_never_faults {T : Type} (cmp : T → T → Int)
    (index : T → Nat) (seqs : List (Option (List T)))
    (htag : TaggedFrom index 0 seqs) (n : Nat) (items2 : List T)
    (pulls2 : List (Option (List T))) (out2 : List T)
    (hreach : iterMerge (mergeLess cmp index) index n
        ((mergeInitState cmp index seqs).1,
         (mergeInitState cmp index seqs).2, [])
      = .ok (items2, pulls2, out2))
    (hne : items2 ≠ []) :
    ∃ v rest,
      heapPop (mergeLess cmp index) items2 = some (v, rest) ∧
      index v < pulls2.length ∧
      (∃ rem, pulls2[index v]? = some (some rem)) ∧
      (∃ st2, refill (mergeLess cmp index) index v rest pulls2
        = .ok st2) := by
  have hsafe : SafeInv index items2 pulls2 :=
    iterMerge_safeInv (mergeLess cmp index) index n
      (mergeInitState cmp index seqs).1 (mergeInitState cmp index seqs).2
      [] (items2, pulls2, out2)
      (mergeInit_safeInv cmp index seqs htag) hreach
  obtain ⟨v, rest, rem, hpop, _, hrem, _, _⟩ :=
    mergeStep_spec (mergeLess cmp index) index items2 pulls2 hsafe hne
  refine ⟨v, rest, hpop, getElem?_some_lt hrem, ⟨rem, hrem⟩, ?_⟩
  unfold refill
  rw [hrem]
  cases rem with
  | nil => exact ⟨(rest, pulls2), rfl⟩
  | cons h t =>
    exact ⟨(heapPush (mergeLess cmp index) rest h,
      pulls2.set (index v) (some t)), rfl⟩

theorem C10_refill_never_faults_witness :
    ∃ v rest,
      heapPop (mergeLess (wrapCompare intCmp) wrappedSeqValue.index)
        (mergeInitState (wrapCompare intCmp) wrappedSeqValue.index
          (wrapSources 0 [some [(5:Int), 7]])).1 = some (v, rest) ∧
      wrappedSeqValue.index v
        < (mergeInitState (wrapCompare intCmp) wrappedSeqValue.index
            (wrapSources 0 [some [(5:Int), 7]])).2.length ∧
      (∃ rem, (mergeInitState (wrapCompare intCmp) wrappedSeqValue.index
          (wrapSources 0 [some [(5:Int), 7]])).2[wrappedSeqValue.index v]?
        = some (some rem)) ∧
      (∃ st2, refill (mergeLess (wrapCompare intCmp) wrappedSeqValue.index)
          wrappedSeqValue.index v rest
          (mergeInitState (wrapCompare intCmp) wrappedSeqValue.index
            (wrapSources 0 [some [(5:Int), 7]])).2
        = .ok st2) :=
  C10_refill_never_faults (wrapCompare intCmp) wrappedSeqValue.index
    (wrapSources 0 [some [(5:Int), 7]])
    (wrapSources_tagged [some [(5:Int), 7]] 0) 0
    (mergeInitState (wrapCompare intCmp) wrappedSeqValue.index
      (wrapSources 0 [some [(5:Int), 7]])).1
    (mergeInitState (wrapCompare intCmp) wrappedSeqValue.index
      (wrapSources 0 [some [(5:Int), 7]])).2
    [] rfl
    (by
      intro hcc
      rw [show (mergeInitState (wrapCompare intCmp) wrappedSeqValue.index
          (wrapSources 0 [some [(5:Int), 7]])).1 = [⟨0, 5⟩] from by
        show heapInit (mergeLess (wrapCompare intCmp) wrappedSeqValue.index)
          [⟨0, (5:Int)⟩] = [⟨0, 5⟩]
        exact heapInit_singleton _ _] at hcc
      cases hcc)
